import Mathlib

/-!
Fan-out / fan-in pipeline of `precode.go`

A shallow embedding of `Generator`, `Worker` and `main` from `precode.go`.

* `int64` values are mathematical integers, every arithmetic operation of the
  source is followed by `wrap64` (two's-complement wrap-around).
* Every goroutine is a small machine over a program counter; one machine step
  is one statement of the source. `Generator` and `Worker` are step functions
  over the events of the function, so that a run of the function alone is a
  list of events; `main`, the collectors and the barrier are part of `step`.
* The Go runtime is modelled by the way machine steps are composed in
  `step`: an unbuffered channel hands a value over in one joint step of sender
  and receiver, a buffered channel is a FIFO queue with a capacity, `range`
  over a closed and drained channel ends, a `select` may take any case that is
  ready, a send on a closed channel, a second `close` and a negative
  `WaitGroup` counter panic, `log.Fatalf` ends the process without running
  deferred calls.
* Time is not modelled: the deadline of `ctx` is a step `timeout` that may
  happen at any moment, or has happened before `main` starts (`expired`), and
  `time.Sleep` is a step that is always enabled.
* The number of workers `NumOut` (5 in the source) is the parameter `N`.
-/

namespace Pipeline

/-! ## int64 arithmetic -/

/-- Two's-complement wrap-around of an integer into the range of `int64`. -/
def wrap64 (x : Int) : Int :=
  (x + 9223372036854775808) % 18446744073709551616 - 9223372036854775808

/-- The integer is a value of type `int64`. -/
def isInt64 (x : Int) : Prop :=
  -9223372036854775808 ≤ x ∧ x < 9223372036854775808

/-! ## Generator (precode.go, lines 16-38) -/

/-- Program counter of `Generator`. -/
inductive GenPC
  /-- the goroutine has not been started by `go` yet -/
  | notStarted
  /-- line 20, before `if ch == nil` (`cnt` already holds 1) -/
  | entry
  /-- line 27, blocked in `select` -/
  | select
  /-- line 33, the send was accepted, `fn(cnt)` is next -/
  | callFn
  /-- line 35, `cnt++` is next -/
  | incr
  /-- line 30 was taken, the deferred `close(ch)` is next -/
  | closing
  /-- the function has returned -/
  | done
  /-- a call of `log.Fatalf` of line 21 ended the process -/
  | fatal
  deriving DecidableEq

/-- Local state of `Generator`: program counter and the variable `cnt`. -/
structure Gen where
  pc : GenPC
  cnt : Int
  deriving DecidableEq

/-- Observable steps of `Generator`. -/
inductive GenEvent
  /-- the test `ch == nil` holds, `log.Fatalf` (line 21) -/
  | fatal
  /-- the test `ch == nil` fails, `defer close(ch)` is registered (line 25) -/
  | enter
  /-- the branch `case <-ctx.Done(): return` (lines 28-30) -/
  | ctxDone
  /-- the branch `case ch <- cnt` is accepted by a receiver (line 31) -/
  | send (v : Int)
  /-- the call `fn(cnt)` (line 33) -/
  | fn (v : Int)
  /-- the statement `cnt++` (line 35) -/
  | incr
  /-- the deferred `close(ch)` (line 25) -/
  | close
  deriving DecidableEq

/-- State of `Generator` on entry: `cnt := int64(1)` (line 18). -/
def Gen.start : Gen := { pc := .entry, cnt := 1 }

/-- One step of `Generator`; `chNil` says whether the argument `ch` is nil.
`none` means the event is not what the function does next. -/
def Generator (chNil : Bool) (g : Gen) (e : GenEvent) : Option Gen :=
  match g.pc, e with
  | .entry, .fatal => if chNil then some { g with pc := .fatal } else none
  | .entry, .enter => if chNil then none else some { g with pc := .select }
  | .select, .ctxDone => some { g with pc := .closing }
  | .select, .send v => if v = g.cnt then some { g with pc := .callFn } else none
  | .callFn, .fn v => if v = g.cnt then some { g with pc := .incr } else none
  | .incr, .incr => some { pc := .select, cnt := wrap64 (g.cnt + 1) }
  | .closing, .close => some { g with pc := .done }
  | _, _ => none

/-- Run `Generator` along a sequence of events. -/
def runGenerator (chNil : Bool) : Gen → List GenEvent → Option Gen
  | g, [] => some g
  | g, e :: es =>
    match Generator chNil g e with
    | none => none
    | some g' => runGenerator chNil g' es

/-- The values sent on `ch`, in order. -/
def sends (evs : List GenEvent) : List Int :=
  evs.filterMap fun e => match e with
    | .send v => some v
    | _ => none

/-- The arguments of the calls of `fn`, in order. -/
def fnCalls (evs : List GenEvent) : List Int :=
  evs.filterMap fun e => match e with
    | .fn v => some v
    | _ => none

/-- The list `1, 2, ..., k`. -/
def oneTo (k : Nat) : List Int :=
  (List.range k).map fun (i : Nat) => (i : Int) + 1

/-- The list `1, 2, ..., k` as `cnt` produces it, with int64 wrap-around. -/
def sentList (k : Nat) : List Int :=
  (List.range k).map fun (i : Nat) => wrap64 ((i : Int) + 1)

/-- The events of `k` full iterations of the loop of `Generator`. -/
def cycles (k : Nat) : List GenEvent :=
  (List.range k).flatMap fun (i : Nat) =>
    [.send (wrap64 ((i : Int) + 1)), .fn (wrap64 ((i : Int) + 1)), .incr]

/-! ## Worker (precode.go, lines 41-61) -/

/-- Program counter of `Worker`. -/
inductive WorkerPC
  /-- the goroutine has not been started by `go` yet -/
  | notStarted
  /-- line 43, before `if out == nil` -/
  | entry
  /-- line 50, `defer close(out)` is registered, before `if in == nil` -/
  | checkIn
  /-- line 56, waiting for the next value of `range in` -/
  | recv
  /-- line 57, `out <- v` is next -/
  | send (v : Int)
  /-- line 59, `time.Sleep` is next -/
  | sleep
  /-- the loop has ended, the deferred `close(out)` is next -/
  | closing
  /-- the function has returned -/
  | done
  /-- a call of `log.Fatalf` of line 44 or 51 ended the process -/
  | fatal
  deriving DecidableEq

/-- Observable steps of `Worker`. -/
inductive WorkerEvent
  /-- a nil check holds, `log.Fatalf` (line 44 or 51) -/
  | fatal
  /-- the test `out == nil` fails, `defer close(out)` is registered (line 48) -/
  | outOk
  /-- the test `in == nil` fails (line 50) -/
  | inOk
  /-- the loop `range in` yields a value (line 56) -/
  | recv (v : Int)
  /-- the loop `range in` sees `in` closed (line 56) -/
  | inClosed
  /-- the send `out <- v` is accepted by a receiver (line 57) -/
  | send (v : Int)
  /-- the call `time.Sleep(time.Millisecond)` (line 59) -/
  | sleep
  /-- the deferred `close(out)` (line 48) -/
  | close
  deriving DecidableEq

/-- One step of `Worker`; `inNil` and `outNil` say whether the arguments are
nil. `log.Fatalf` ends the process, so the deferred `close(out)` does not run
after line 51. -/
def Worker (inNil outNil : Bool) (w : WorkerPC) (e : WorkerEvent) : Option WorkerPC :=
  match w, e with
  | .entry, .fatal => if outNil then some .fatal else none
  | .entry, .outOk => if outNil then none else some .checkIn
  | .checkIn, .fatal => if inNil then some .fatal else none
  | .checkIn, .inOk => if inNil then none else some .recv
  | .recv, .recv v => some (.send v)
  | .recv, .inClosed => some .closing
  | .send v, .send u => if u = v then some .sleep else none
  | .sleep, .sleep => some .recv
  | .closing, .close => some .done
  | _, _ => none

/-- Run `Worker` along a sequence of events. -/
def runWorker (inNil outNil : Bool) : WorkerPC → List WorkerEvent → Option WorkerPC
  | w, [] => some w
  | w, e :: es =>
    match Worker inNil outNil w e with
    | none => none
    | some w' => runWorker inNil outNil w' es

/-! ## The final checks of main (precode.go, lines 127-139) -/

/-- The three fatal diagnostics of the final checks. -/
inductive Fatal
  /-- line 129 -/
  | sumMismatch
  /-- line 132 -/
  | countMismatch
  /-- line 138 -/
  | splitMismatch
  deriving DecidableEq

/-- The checks at the end of `main`: `some d` when `log.Fatalf` is reached with
diagnostic `d`, `none` when `main` ends normally. The loop of lines 134-136
subtracts every entry of `amounts` from `inputCount` in int64 arithmetic. -/
def checkResults (inputSum inputCount sum count : Int) (amounts : List Int) : Option Fatal :=
  if inputSum ≠ sum then some .sumMismatch
  else if inputCount ≠ count then some .countMismatch
  else if amounts.foldl (fun acc v => wrap64 (acc - v)) inputCount ≠ 0 then some .splitMismatch
  else none

/-! ## main (precode.go, lines 63-140) -/

/-- Program counter of the collector goroutine of lines 98-104. -/
inductive CollPC
  /-- the goroutine has not been started by `go` yet -/
  | notStarted
  /-- line 99, waiting for the next value of `range in` -/
  | recv
  /-- line 100, `amounts[i]++` is next -/
  | incr (v : Int)
  /-- line 101, `chOut <- val` is next -/
  | send (v : Int)
  /-- line 103, `wg.Done()` is next -/
  | wgDone
  /-- the function has returned -/
  | done
  deriving DecidableEq

/-- Program counter of the barrier goroutine of lines 107-112. -/
inductive BarrierPC
  /-- the goroutine has not been started by `go` yet -/
  | notStarted
  /-- line 109, blocked in `wg.Wait()` -/
  | wait
  /-- line 111, `close(chOut)` is next -/
  | closing
  /-- the function has returned -/
  | done
  deriving DecidableEq

/-- Program counter of the goroutine of `main`. -/
inductive MainPC
  /-- line 74, `go Generator(...)` is next -/
  | spawnGen
  /-- lines 82-86, iteration `i` of the loop that starts the workers -/
  | spawnWorker (i : Nat)
  /-- line 97, iteration `i` of the loop over `outs`, `wg.Add(1)` is next -/
  | addWg (i : Nat)
  /-- line 98, iteration `i` of the loop over `outs`, the `go` statement is next -/
  | goColl (i : Nat)
  /-- line 107, the `go` statement of the barrier is next -/
  | spawnBarrier
  /-- line 118, waiting for the next value of `range chOut` -/
  | recv
  /-- line 119, `sum += resVal` is next -/
  | addSum (v : Int)
  /-- line 120, `count++` is next -/
  | incCount
  /-- the loop of lines 118-121 has ended -/
  | finished
  deriving DecidableEq

/-- Worker `i`, its channel `outs[i]`, collector `i` and `amounts[i]`. -/
structure Lane where
  /-- program counter of `Worker(chIn, outs[i])` -/
  w : WorkerPC
  /-- the channel `outs[i]` has been closed -/
  outClosed : Bool
  /-- program counter of collector `i` -/
  c : CollPC
  /-- the counter `amounts[i]` -/
  amount : Int
  deriving DecidableEq

/-- Global state of the program. `emitted` and `received` are history
variables: no step reads them. -/
structure State where
  /-- the channel `ctx.Done()` is closed -/
  cancelled : Bool
  /-- the goroutine of `Generator` -/
  gen : Gen
  /-- the observer closure of lines 74-77 has run line 75 and not yet line 76 -/
  obsHalf : Bool
  /-- the channel `chIn` has been closed -/
  chInClosed : Bool
  inputSum : Int
  inputCount : Int
  lanes : List Lane
  /-- counter of the `sync.WaitGroup` -/
  wg : Nat
  /-- the barrier goroutine -/
  barrier : BarrierPC
  /-- buffer of `chOut`, oldest value first -/
  chOut : List Int
  /-- the channel `chOut` has been closed -/
  chOutClosed : Bool
  /-- the goroutine of `main` -/
  main : MainPC
  sum : Int
  count : Int
  /-- a goroutine has panicked (send on a closed channel, second close of a
  channel, negative WaitGroup counter) -/
  panicked : Bool
  /-- history: the values accepted on `chIn`, oldest first -/
  emitted : List Int
  /-- history: the values the loop of line 118 took from `chOut`, oldest first -/
  received : List Int
  deriving DecidableEq

/-- The state in which `main` reaches line 74, for `N` workers (`NumOut`);
`expired` says whether the deadline of `ctx` has already passed. -/
def init (N : Nat) (expired : Bool) : State :=
  { cancelled := expired
    gen := { pc := .notStarted, cnt := 1 }
    obsHalf := false
    chInClosed := false
    inputSum := 0
    inputCount := 0
    lanes := List.replicate N { w := .notStarted, outClosed := false, c := .notStarted, amount := 0 }
    wg := 0
    barrier := .notStarted
    chOut := []
    chOutClosed := false
    main := .spawnGen
    sum := 0
    count := 0
    panicked := false
    emitted := []
    received := [] }

/-- The atomic steps of the program. -/
inductive Action
  /-- the deadline of `ctx` passes -/
  | timeout
  /-- the next statement of `main` -/
  | main
  /-- the function `Generator` passes its nil check -/
  | genEnter
  /-- the function `Generator` takes `case <-ctx.Done()` -/
  | genDone
  /-- the function `Generator` takes `case ch <- cnt`, worker `i` receives -/
  | genSend (i : Nat)
  /-- the observer runs `atomic.AddInt64(&inputSum, i)` -/
  | obsSum
  /-- the observer runs `atomic.AddInt64(&inputCount, 1)` and returns -/
  | obsCount
  /-- the function `Generator` runs `cnt++` -/
  | genIncr
  /-- the function `Generator` runs the deferred `close(ch)` -/
  | genClose
  /-- worker `i` passes the check of `out` -/
  | wOutOk (i : Nat)
  /-- worker `i` passes the check of `in` -/
  | wInOk (i : Nat)
  /-- worker `i` sees `chIn` closed -/
  | wExit (i : Nat)
  /-- worker `i` sends on `outs[i]`, collector `i` receives -/
  | wSend (i : Nat)
  /-- worker `i` sleeps -/
  | wSleep (i : Nat)
  /-- worker `i` runs the deferred `close(out)` -/
  | wClose (i : Nat)
  /-- collector `i` sees `outs[i]` closed -/
  | cExit (i : Nat)
  /-- collector `i` runs `amounts[i]++` -/
  | cIncr (i : Nat)
  /-- collector `i` sends on `chOut` -/
  | cSend (i : Nat)
  /-- collector `i` runs `wg.Done()` -/
  | cDone (i : Nat)
  /-- the call `wg.Wait()` returns -/
  | bWake
  /-- the barrier runs `close(chOut)` -/
  | bClose
  deriving DecidableEq

/-- The next statement of `main`. -/
def main (N : Nat) (s : State) : Option State :=
  match s.main with
  | .spawnGen => some { s with gen := Gen.start, main := .spawnWorker 0 }
  | .spawnWorker i =>
    if i < N then
      match s.lanes[i]? with
      | none => none
      | some l =>
        some { s with lanes := s.lanes.set i { l with w := .entry }, main := .spawnWorker (i + 1) }
    else some { s with main := .addWg 0 }
  | .addWg i =>
    if i < N then some { s with wg := s.wg + 1, main := .goColl i }
    else some { s with main := .spawnBarrier }
  | .goColl i =>
    match s.lanes[i]? with
    | none => none
    | some l =>
      some { s with lanes := s.lanes.set i { l with c := .recv }, main := .addWg (i + 1) }
  | .spawnBarrier => some { s with barrier := .wait, main := .recv }
  | .recv =>
    match s.chOut with
    | v :: rest => some { s with chOut := rest, main := .addSum v, received := s.received ++ [v] }
    | [] => if s.chOutClosed then some { s with main := .finished } else none
  | .addSum v => some { s with sum := wrap64 (s.sum + v), main := .incCount }
  | .incCount => some { s with count := wrap64 (s.count + 1), main := .recv }
  | .finished => none

/-- A step of worker `i` that touches no channel. -/
def stepWorkerLocal (s : State) (i : Nat) (e : WorkerEvent) : Option State :=
  match s.lanes[i]? with
  | none => none
  | some l =>
    match Worker false false l.w e with
    | none => none
    | some w => some { s with lanes := s.lanes.set i { l with w := w } }

/-- One atomic step of the program with `N` workers. -/
def step (N : Nat) (s : State) (a : Action) : Option State :=
  if s.panicked then none else
  match a with
  | .timeout => if s.cancelled then none else some { s with cancelled := true }
  | .main => main N s
  | .genEnter =>
    match Generator false s.gen .enter with
    | none => none
    | some g => some { s with gen := g }
  | .genDone =>
    if s.cancelled then
      match Generator false s.gen .ctxDone with
      | none => none
      | some g => some { s with gen := g }
    else none
  | .genSend i =>
    match Generator false s.gen (.send s.gen.cnt) with
    | none => none
    | some g =>
      if s.chInClosed then some { s with panicked := true } else
      match s.lanes[i]? with
      | none => none
      | some l =>
        match Worker false false l.w (.recv s.gen.cnt) with
        | none => none
        | some w =>
          some { s with gen := g, lanes := s.lanes.set i { l with w := w },
                        emitted := s.emitted ++ [s.gen.cnt] }
  | .obsSum =>
    if s.gen.pc = .callFn ∧ s.obsHalf = false then
      some { s with inputSum := wrap64 (s.inputSum + s.gen.cnt), obsHalf := true }
    else none
  | .obsCount =>
    if s.obsHalf = true then
      match Generator false s.gen (.fn s.gen.cnt) with
      | none => none
      | some g => some { s with inputCount := wrap64 (s.inputCount + 1), obsHalf := false, gen := g }
    else none
  | .genIncr =>
    match Generator false s.gen .incr with
    | none => none
    | some g => some { s with gen := g }
  | .genClose =>
    match Generator false s.gen .close with
    | none => none
    | some g =>
      if s.chInClosed then some { s with panicked := true }
      else some { s with gen := g, chInClosed := true }
  | .wOutOk i => stepWorkerLocal s i .outOk
  | .wInOk i => stepWorkerLocal s i .inOk
  | .wSleep i => stepWorkerLocal s i .sleep
  | .wExit i => if s.chInClosed then stepWorkerLocal s i .inClosed else none
  | .wSend i =>
    match s.lanes[i]? with
    | none => none
    | some l =>
      match l.w with
      | .send v =>
        match Worker false false l.w (.send v) with
        | none => none
        | some w =>
          if l.outClosed then some { s with panicked := true } else
          match l.c with
          | .recv => some { s with lanes := s.lanes.set i { l with w := w, c := .incr v } }
          | _ => none
      | _ => none
  | .wClose i =>
    match s.lanes[i]? with
    | none => none
    | some l =>
      match Worker false false l.w .close with
      | none => none
      | some w =>
        if l.outClosed then some { s with panicked := true }
        else some { s with lanes := s.lanes.set i { l with w := w, outClosed := true } }
  | .cExit i =>
    match s.lanes[i]? with
    | none => none
    | some l =>
      match l.c with
      | .recv =>
        if l.outClosed then some { s with lanes := s.lanes.set i { l with c := .wgDone } }
        else none
      | _ => none
  | .cIncr i =>
    match s.lanes[i]? with
    | none => none
    | some l =>
      match l.c with
      | .incr v =>
        some { s with lanes := s.lanes.set i { l with amount := wrap64 (l.amount + 1), c := .send v } }
      | _ => none
  | .cSend i =>
    match s.lanes[i]? with
    | none => none
    | some l =>
      match l.c with
      | .send v =>
        if s.chOutClosed then some { s with panicked := true }
        else if s.chOut.length < N then
          some { s with lanes := s.lanes.set i { l with c := .recv }, chOut := s.chOut ++ [v] }
        else none
      | _ => none
  | .cDone i =>
    match s.lanes[i]? with
    | none => none
    | some l =>
      match l.c with
      | .wgDone =>
        if s.wg = 0 then some { s with panicked := true }
        else some { s with lanes := s.lanes.set i { l with c := .done }, wg := s.wg - 1 }
      | _ => none
  | .bWake =>
    if s.barrier = .wait ∧ s.wg = 0 then some { s with barrier := .closing } else none
  | .bClose =>
    if s.barrier = .closing then
      if s.chOutClosed then some { s with panicked := true }
      else some { s with barrier := .done, chOutClosed := true }
    else none

/-- The states the program with `N` workers can reach from `init N expired`. -/
inductive Reachable (N : Nat) (expired : Bool) : State → Prop
  | start : Reachable N expired (init N expired)
  | next {s s' : State} (a : Action) :
      Reachable N expired s → step N s a = some s' → Reachable N expired s'

/-- Run the program along a schedule. -/
def runActions (N : Nat) : State → List Action → Option State
  | s, [] => some s
  | s, a :: as =>
    match step N s a with
    | none => none
    | some s' => runActions N s' as

/-- The final checks of `main` in a state. -/
def verdict (s : State) : Option Fatal :=
  checkResults s.inputSum s.inputCount s.sum s.count (s.lanes.map Lane.amount)

/-! ## The invariant of the program -/

/-- Number of copies of `x` that worker and collector of a lane hold in their
local variables. -/
def heldCnt (x : Int) (l : Lane) : Nat :=
  (match l.w with
    | .send v => if v = x then 1 else 0
    | _ => 0) +
  (match l.c with
    | .incr v => if v = x then 1 else 0
    | .send v => if v = x then 1 else 0
    | _ => 0)

/-- The collector holds a value it has already counted in `amounts[i]`. -/
def passed (l : Lane) : Int :=
  match l.c with
  | .send _ => 1
  | _ => 0

/-- The worker holds a value (1) or not (0). -/
def pendW (w : WorkerPC) : Int :=
  match w with
  | .send _ => 1
  | _ => 0

/-- The collector holds a value that `amounts[i]` does not count yet (1) or
not (0). -/
def pendC (c : CollPC) : Int :=
  match c with
  | .incr _ => 1
  | _ => 0

/-- Number of values a lane holds that `amounts[i]` does not count yet. -/
def pend (l : Lane) : Int :=
  pendW l.w + pendC l.c

/-- The collector is running and has not yet called `wg.Done()`. -/
def active (l : Lane) : Nat :=
  match l.c with
  | .notStarted => 0
  | .done => 0
  | _ => 1

/-- Worker `j` has been started by `main`. -/
def wSpawned (m : MainPC) (j : Nat) : Prop :=
  match m with
  | .spawnGen => False
  | .spawnWorker i => j < i
  | _ => True

/-- Collector `j` has been started by `main`. -/
def cSpawned (m : MainPC) (j : Nat) : Prop :=
  match m with
  | .spawnGen => False
  | .spawnWorker _ => False
  | .addWg i => j < i
  | .goColl i => j < i
  | _ => True

/-- The barrier goroutine has been started by `main`. -/
def bSpawned (m : MainPC) : Prop :=
  match m with
  | .recv => True
  | .addSum _ => True
  | .incCount => True
  | .finished => True
  | _ => False

/-- What holds of lane `j` in every reachable state; `m`, `cin`, `b` and `em`
are the fields `main`, `chInClosed`, `barrier` and `emitted` of the state. -/
structure LaneInv (m : MainPC) (cin : Bool) (b : BarrierPC) (em : List Int) (j : Nat)
    (l : Lane) : Prop where
  wStarted : l.w = .notStarted ↔ ¬ wSpawned m j
  cStarted : l.c = .notStarted ↔ ¬ cSpawned m j
  outC : l.outClosed = true ↔ l.w = .done
  wEnd : l.w = .closing ∨ l.w = .done → cin = true
  cEnd : l.c = .wgDone ∨ l.c = .done → l.outClosed = true
  wFatal : l.w ≠ .fatal
  bar : b = .closing ∨ b = .done → l.c = .done
  amt : em = [] → l.amount = 0
  amtB : (em.length : Int) < 9223372036854775808 →
    0 ≤ l.amount ∧ l.amount + pend l ≤ em.length

/-- What holds in every reachable state of the program with `N` workers. -/
structure Inv (N : Nat) (s : State) : Prop where
  noPanic : s.panicked = false
  len : s.lanes.length = N
  genStarted : s.gen.pc = .notStarted ↔ s.main = .spawnGen
  genFatal : s.gen.pc ≠ .fatal
  notYet : s.gen.pc = .notStarted → s.emitted = []
  chIn : s.chInClosed = true ↔ s.gen.pc = .done
  obs : s.obsHalf = true → s.gen.pc = .callFn
  cnt : s.gen.cnt =
    wrap64 (s.emitted.length + if s.gen.pc = .callFn ∨ s.gen.pc = .incr then 0 else 1)
  emitted : s.emitted = sentList s.emitted.length
  inSum : wrap64 (s.inputSum + if s.gen.pc = .callFn ∧ s.obsHalf = false then s.gen.cnt else 0)
    = wrap64 s.emitted.sum
  inSumR : isInt64 s.inputSum
  inCount : wrap64 (s.inputCount + if s.gen.pc = .callFn then 1 else 0)
    = wrap64 s.emitted.length
  inCountR : isInt64 s.inputCount
  mainIdx : match s.main with
    | .spawnWorker i => i ≤ N
    | .addWg i => i ≤ N
    | .goColl i => i < N
    | _ => True
  lane : ∀ j l, s.lanes[j]? = some l → LaneInv s.main s.chInClosed s.barrier s.emitted j l
  barStarted : s.barrier = .notStarted ↔ ¬ bSpawned s.main
  chOutC : s.chOutClosed = true ↔ s.barrier = .done
  wgEq : s.wg = (s.lanes.map active).sum + (match s.main with
    | .goColl _ => 1
    | _ => 0)
  fin : s.main = .finished → s.chOutClosed = true ∧ s.chOut = []
  aggSum : wrap64 (s.sum + match s.main with
    | .addSum v => v
    | _ => 0) = wrap64 s.received.sum
  sumR : isInt64 s.sum
  aggCount : wrap64 (s.count + match s.main with
    | .addSum _ => 1
    | .incCount => 1
    | _ => 0) = wrap64 s.received.length
  countR : isInt64 s.count
  flow : ∀ x, (s.lanes.map (heldCnt x)).sum + s.chOut.count x + s.received.count x
    = s.emitted.count x
  amounts : wrap64 (s.lanes.map Lane.amount).sum
    = wrap64 ((s.lanes.map passed).sum + s.chOut.length + s.received.length)
  amtExact : (s.emitted.length : Int) < 9223372036854775808 →
    (s.lanes.map Lane.amount).sum
      = (s.lanes.map passed).sum + s.chOut.length + s.received.length


/-- The events of `k` full iterations of the loop of `Generator` when no
counter wraps around: `send 1, fn 1, cnt++, ..., send k, fn k, cnt++`. -/
def canon (k : Nat) : List GenEvent :=
  (oneTo k).flatMap fun v => [.send v, .fn v, .incr]

/-- The possible ends of a run of `Generator` after `k` full iterations, with
`v` the value of `cnt`. -/
def tails (v : Int) : List (List GenEvent) :=
  [[], [.send v], [.send v, .fn v], [.ctxDone], [.ctxDone, .close]]

/-- The shape of every run of `Generator`: the events `evs` that lead from
`Gen.start` to `g`, with `cnt` wrapping around. -/
def GenShape (chNil : Bool) (evs : List GenEvent) (g : Gen) : Prop :=
  (g = Gen.start ∧ evs = []) ∨
  (chNil = true ∧ g = { pc := .fatal, cnt := 1 } ∧ evs = [.fatal]) ∨
  (chNil = false ∧ ∃ k : Nat, g.cnt = wrap64 ((k : Int) + 1) ∧
    ((g.pc = .select ∧ evs = .enter :: cycles k) ∨
     (g.pc = .callFn ∧ evs = .enter :: cycles k ++ [.send g.cnt]) ∨
     (g.pc = .incr ∧ evs = .enter :: cycles k ++ [.send g.cnt, .fn g.cnt]) ∨
     (g.pc = .closing ∧ evs = .enter :: cycles k ++ [.ctxDone]) ∨
     (g.pc = .done ∧ evs = .enter :: cycles k ++ [.ctxDone, .close])))

/-- The shape of every run of `Worker` with a nil argument. -/
def WorkerNilShape (inNil outNil : Bool) (evs : List WorkerEvent) (w : WorkerPC) : Prop :=
  (w = .entry ∧ evs = []) ∨
  (outNil = true ∧ w = .fatal ∧ evs = [.fatal]) ∨
  (outNil = false ∧ w = .checkIn ∧ evs = [.outOk]) ∨
  (outNil = false ∧ inNil = true ∧ w = .fatal ∧ evs = [.outOk, .fatal]) ∨
  (outNil = false ∧ inNil = false ∧ w ≠ .fatal ∧ w ≠ .entry ∧ w ≠ .checkIn ∧
    WorkerEvent.fatal ∉ evs)

/-! ## A measure of the work left once `Generator` sends no more -/

/-- Steps `Generator` still has to take when it sends no more value. -/
def rankGen (g : Gen) (obsHalf : Bool) : Nat :=
  match g.pc with
  | .notStarted => 7
  | .entry => 6
  | .callFn => if obsHalf then 4 else 5
  | .incr => 3
  | .select => 2
  | .closing => 1
  | .done => 0
  | .fatal => 0

/-- Steps a worker still has to take when it receives no more value,
weighted so that handing a value to the collector lowers the rank of the
lane. -/
def rankW (w : WorkerPC) : Nat :=
  match w with
  | .notStarted => 13
  | .entry => 12
  | .checkIn => 11
  | .send _ => 10
  | .sleep => 3
  | .recv => 2
  | .closing => 1
  | .done => 0
  | .fatal => 0

/-- Steps a collector still has to take when it receives no more value. -/
def rankC (c : CollPC) : Nat :=
  match c with
  | .notStarted => 9
  | .incr _ => 8
  | .send _ => 7
  | .recv => 2
  | .wgDone => 1
  | .done => 0

/-- Rank of a lane. -/
def rankLane (l : Lane) : Nat :=
  rankW l.w + rankC l.c

/-- Steps the barrier still has to take. -/
def rankB (b : BarrierPC) : Nat :=
  match b with
  | .notStarted => 3
  | .wait => 2
  | .closing => 1
  | .done => 0

/-- Steps `main` still has to take when `chOut` is empty. -/
def rankMain (N : Nat) (m : MainPC) : Nat :=
  match m with
  | .spawnGen => 7 + 3 * N
  | .spawnWorker i => 6 + 2 * N + (N - i)
  | .addWg i => 5 + 2 * (N - i)
  | .goColl i => 4 + 2 * (N - i)
  | .spawnBarrier => 4
  | .addSum _ => 3
  | .incCount => 2
  | .recv => 1
  | .finished => 0

/-- The measure: every step other than the timer and a send of `Generator`
lowers it. -/
def workLeft (N : Nat) (s : State) : Nat :=
  rankGen s.gen s.obsHalf + (s.lanes.map rankLane).sum + rankB s.barrier +
    rankMain N s.main + 4 * s.chOut.length

/-- The action is neither the timer nor a send of `Generator`. -/
def quietAction (a : Action) : Bool :=
  match a with
  | .timeout => false
  | .genSend _ => false
  | _ => true

/-- A schedule without a step of the timer and without a send of
`Generator`. -/
def quiet (as : List Action) : Bool :=
  as.all quietAction

/-- A schedule with one worker and the deadline already passed: the worker
waits on `chIn` when `Generator` reaches its `select`, and `select` takes the
send. -/
def lateRun : List Action :=
  [.main, .main, .main, .main, .main, .main, .main,
   .wOutOk 0, .wInOk 0, .genEnter,
   .genSend 0, .obsSum, .obsCount, .genIncr, .genDone, .genClose,
   .wSend 0, .wSleep 0, .wExit 0, .wClose 0, .cIncr 0, .cSend 0, .cExit 0, .cDone 0,
   .bWake, .bClose, .main, .main, .main, .main]

/-- The state at the end of `lateRun`. -/
def lateFinal : State :=
  { cancelled := true
    gen := { pc := .done, cnt := 2 }
    obsHalf := false
    chInClosed := true
    inputSum := 1
    inputCount := 1
    lanes := [{ w := .done, outClosed := true, c := .done, amount := 1 }]
    wg := 0
    barrier := .done
    chOut := []
    chOutClosed := true
    main := .finished
    sum := 1
    count := 1
    panicked := false
    emitted := [1]
    received := [1] }

/-- A schedule with two workers and the deadline already passed: `Generator`
takes `ctx.Done()` in its first `select`. -/
def idleRun : List Action :=
  [.main, .main, .main, .main, .main, .main, .main, .main, .main, .main,
   .wOutOk 0, .wInOk 0, .wOutOk 1, .wInOk 1, .genEnter, .genDone, .genClose,
   .wExit 0, .wExit 1, .wClose 0, .wClose 1, .cExit 0, .cExit 1, .cDone 1, .cDone 0,
   .bWake, .bClose, .main]

/-- The state at the end of `idleRun`. -/
def idleFinal : State :=
  { cancelled := true
    gen := { pc := .done, cnt := 1 }
    obsHalf := false
    chInClosed := true
    inputSum := 0
    inputCount := 0
    lanes := [{ w := .done, outClosed := true, c := .done, amount := 0 },
              { w := .done, outClosed := true, c := .done, amount := 0 }]
    wg := 0
    barrier := .done
    chOut := []
    chOutClosed := true
    main := .finished
    sum := 0
    count := 0
    panicked := false
    emitted := []
    received := [] }

/-- A schedule of the program with two workers: three values are emitted, the
second overtakes the first, then the deadline passes and everything shuts
down. -/
def demoRun : List Action :=
  [.main, .main, .main, .main, .main, .main, .main, .main, .main, .main,
   .wOutOk 0, .wInOk 0, .wOutOk 1, .wInOk 1, .genEnter,
   .genSend 0, .obsSum, .obsCount, .genIncr,
   .genSend 1, .wSend 1, .obsSum, .cIncr 1, .cSend 1, .obsCount, .genIncr,
   .wSend 0, .wSleep 0, .genSend 0, .obsSum, .obsCount, .genIncr,
   .main, .main, .main,
   .timeout, .genDone, .genClose,
   .cIncr 0, .cSend 0, .wSend 0, .cIncr 0, .cSend 0, .wSleep 0, .wSleep 1,
   .wExit 0, .wExit 1, .wClose 0, .wClose 1, .cExit 0, .cExit 1, .cDone 1, .cDone 0,
   .bWake, .bClose, .main, .main, .main, .main, .main, .main, .main]

/-- The state at the end of `demoRun`. -/
def demoFinal : State :=
  { cancelled := true
    gen := { pc := .done, cnt := 4 }
    obsHalf := false
    chInClosed := true
    inputSum := 6
    inputCount := 3
    lanes := [{ w := .done, outClosed := true, c := .done, amount := 2 },
              { w := .done, outClosed := true, c := .done, amount := 1 }]
    wg := 0
    barrier := .done
    chOut := []
    chOutClosed := true
    main := .finished
    sum := 6
    count := 3
    panicked := false
    emitted := [1, 2, 3]
    received := [2, 1, 3] }


/-- A schedule with two workers and the deadline already passed that stops in
the middle of the run: one value is on its way, `Generator` is blocked in
`select`. -/
def blockedRun : List Action :=
  [.main, .main, .main, .main, .main, .main, .main, .main, .main, .main,
   .wOutOk 0, .wInOk 0, .wOutOk 1, .genEnter, .genSend 0, .obsSum, .obsCount, .genIncr,
   .wSend 0, .cIncr 0]

/-- The state at the end of `blockedRun`. -/
def blocked : State :=
  { cancelled := true
    gen := { pc := .select, cnt := 2 }
    obsHalf := false
    chInClosed := false
    inputSum := 1
    inputCount := 1
    lanes := [{ w := .sleep, outClosed := false, c := .send 1, amount := 1 },
              { w := .checkIn, outClosed := false, c := .recv, amount := 0 }]
    wg := 2
    barrier := .wait
    chOut := []
    chOutClosed := false
    main := .recv
    sum := 0
    count := 0
    panicked := false
    emitted := [1]
    received := [] }

/-! ## Lists of lanes -/

theorem sum_map_set_nat (f : Lane → Nat) (ls : List Lane) (i : Nat) (l l' : Lane)
    (h : ls[i]? = some l) : ((ls.set i l').map f).sum + f l = (ls.map f).sum + f l' := by
  induction ls generalizing i with
  | nil => simp at h
  | cons a t ih =>
    cases i with
    | zero =>
      simp only [List.getElem?_cons_zero, Option.some.injEq] at h
      subst h
      simp only [List.set_cons_zero, List.map_cons, List.sum_cons]
      omega
    | succ k =>
      simp only [List.getElem?_cons_succ] at h
      have := ih k h
      simp only [List.set_cons_succ, List.map_cons, List.sum_cons]
      omega

theorem sum_map_set_int (f : Lane → Int) (ls : List Lane) (i : Nat) (l l' : Lane)
    (h : ls[i]? = some l) : ((ls.set i l').map f).sum = (ls.map f).sum - f l + f l' := by
  induction ls generalizing i with
  | nil => simp at h
  | cons a t ih =>
    cases i with
    | zero =>
      simp only [List.getElem?_cons_zero, Option.some.injEq] at h
      subst h
      simp only [List.set_cons_zero, List.map_cons, List.sum_cons]
      omega
    | succ k =>
      simp only [List.getElem?_cons_succ] at h
      have := ih k h
      simp only [List.set_cons_succ, List.map_cons, List.sum_cons]
      omega

theorem lanes_set {P Q : Nat → Lane → Prop} (ls : List Lane) (i : Nat) (l' : Lane)
    (h : ∀ j l, ls[j]? = some l → P j l) (hi : Q i l')
    (ho : ∀ j l, j ≠ i → P j l → Q j l) :
    ∀ j l, (ls.set i l')[j]? = some l → Q j l := by
  intro j l hj
  rw [List.getElem?_set] at hj
  split at hj
  · split at hj
    · cases hj
      subst_vars
      exact hi
    · cases hj
  · exact ho j l (by omega) (h j l hj)

/-! ## Steps of Generator and Worker -/

theorem gen_fatal_iff {c : Bool} {g g' : Gen} :
    Generator c g .fatal = some g' ↔ g.pc = .entry ∧ c = true ∧ g' = { g with pc := .fatal } := by
  rcases g with ⟨pc, cnt⟩
  cases pc <;> cases c <;> simp [Generator, eq_comm]

theorem gen_enter_iff {c : Bool} {g g' : Gen} :
    Generator c g .enter = some g' ↔ g.pc = .entry ∧ c = false ∧ g' = { g with pc := .select } := by
  rcases g with ⟨pc, cnt⟩
  cases pc <;> cases c <;> simp [Generator, eq_comm]

theorem gen_ctxDone_iff {c : Bool} {g g' : Gen} :
    Generator c g .ctxDone = some g' ↔ g.pc = .select ∧ g' = { g with pc := .closing } := by
  rcases g with ⟨pc, cnt⟩
  cases pc <;> simp [Generator, eq_comm]

theorem gen_send_iff {c : Bool} {g g' : Gen} {v : Int} :
    Generator c g (.send v) = some g' ↔
      g.pc = .select ∧ v = g.cnt ∧ g' = { g with pc := .callFn } := by
  rcases g with ⟨pc, cnt⟩
  cases pc <;> simp [Generator, eq_comm]

theorem gen_fn_iff {c : Bool} {g g' : Gen} {v : Int} :
    Generator c g (.fn v) = some g' ↔
      g.pc = .callFn ∧ v = g.cnt ∧ g' = { g with pc := .incr } := by
  rcases g with ⟨pc, cnt⟩
  cases pc <;> simp [Generator, eq_comm]

theorem gen_incr_iff {c : Bool} {g g' : Gen} :
    Generator c g .incr = some g' ↔
      g.pc = .incr ∧ g' = { pc := .select, cnt := wrap64 (g.cnt + 1) } := by
  rcases g with ⟨pc, cnt⟩
  cases pc <;> simp [Generator, eq_comm]

theorem gen_close_iff {c : Bool} {g g' : Gen} :
    Generator c g .close = some g' ↔ g.pc = .closing ∧ g' = { g with pc := .done } := by
  rcases g with ⟨pc, cnt⟩
  cases pc <;> simp [Generator, eq_comm]

/-! ## Every step keeps the invariant -/

theorem inv_genEnter {N : Nat} {s s' : State} (h : Inv N s) (hs : step N s .genEnter = some s') :
    Inv N s' := by
  unfold step at hs
  rw [if_neg (by simp [h.noPanic])] at hs
  simp only at hs
  split at hs
  · cases hs
  · rename_i g hg
    simp only [Option.some.injEq] at hs
    subst hs
    obtain ⟨hpc, -, rfl⟩ := gen_enter_iff.1 hg
    have := h.cnt
    have := h.inSum
    have := h.inCount
    have := h.genStarted
    have := h.obs
    have := h.chIn
    exact { h with
      genStarted := by simp_all
      genFatal := by simp
      notYet := by simp
      chIn := by simp_all
      obs := by simp_all
      cnt := by simp_all
      inSum := by simp_all
      inCount := by simp_all }

theorem worker_recv_iff {a b : Bool} {w w' : WorkerPC} {v : Int} :
    Worker a b w (.recv v) = some w' ↔ w = .recv ∧ w' = .send v := by
  cases w <;> simp [Worker, eq_comm]

theorem sentList_succ (k : Nat) : sentList (k + 1) = sentList k ++ [wrap64 ((k : Int) + 1)] := by
  simp [sentList, List.range_succ]

theorem inv_genSend {N : Nat} {s s' : State} {i : Nat} (h : Inv N s)
    (hs : step N s (.genSend i) = some s') : Inv N s' := by
  unfold step at hs
  rw [if_neg (by simp [h.noPanic])] at hs
  simp only at hs
  split at hs
  · cases hs
  rename_i g hg
  obtain ⟨hpc, -, rfl⟩ := gen_send_iff.1 hg
  have hcin : s.chInClosed = false := by
    have := h.chIn
    cases hc : s.chInClosed <;> simp_all
  rw [if_neg (by simp [hcin])] at hs
  split at hs
  · cases hs
  rename_i l hl
  split at hs
  · cases hs
  rename_i w hw
  obtain ⟨hlw, rfl⟩ := worker_recv_iff.1 hw
  simp only [Option.some.injEq] at hs
  subst hs
  have hcnt := h.cnt
  have hsum := h.inSum
  have hcount := h.inCount
  have hobs : s.obsHalf = false := by
    have := h.obs
    cases hc : s.obsHalf <;> simp_all
  have hL := h.lane i l hl
  simp only [hpc, hobs, false_or, and_true, if_false, reduceCtorEq, ite_false, false_and,
    if_neg, not_false_eq_true] at hcnt hsum hcount
  exact { h with
    len := by simp [h.len]
    genStarted := by
      have := h.genStarted
      simp_all
    genFatal := by simp
    notYet := by simp
    chIn := by simp [hcin]
    obs := by simp
    cnt := by
      simp only [List.length_append, List.length_singleton, true_or, if_true]
      rw [hcnt]
      push_cast
      simp
    emitted := by
      simp only [List.length_append, List.length_singleton]
      rw [sentList_succ, ← h.emitted, hcnt]
    inSum := by
      simp only [hobs, and_self, if_true, List.sum_append, List.sum_singleton]
      simp only [wrap64] at hsum ⊢
      omega
    inCount := by
      simp only [if_true, List.length_append, List.length_singleton]
      simp only [wrap64] at hcount ⊢
      omega
    lane := by
      refine lanes_set s.lanes i _ h.lane ?_ ?_
      · exact { hL with
          wStarted := by
            have := hL.wStarted
            simp_all
          outC := by
            have := hL.outC
            simp_all
          wEnd := by simp
          wFatal := by simp
          amt := by simp
          amtB := by
            intro hlt
            simp only [List.length_append, List.length_singleton] at hlt ⊢
            push_cast at hlt ⊢
            have := hL.amtB (by omega)
            simp only [pend, pendW, pendC, hlw] at this ⊢
            omega }
      · intro j l' _ hl'
        exact { hl' with
          amt := by simp
          amtB := by
            intro hlt
            simp only [List.length_append, List.length_singleton] at hlt ⊢
            push_cast at hlt ⊢
            have := hl'.amtB (by omega)
            omega }
    wgEq := by
      have := sum_map_set_nat active s.lanes i l { l with w := .send s.gen.cnt } hl
      have := h.wgEq
      simp only [active] at *
      omega
    flow := by
      intro x
      have h9 := sum_map_set_nat (heldCnt x) s.lanes i l { l with w := .send s.gen.cnt } hl
      have h10 := h.flow x
      have e1 : heldCnt x { l with w := .send s.gen.cnt }
          = heldCnt x l + (if s.gen.cnt = x then 1 else 0) := by
        simp only [heldCnt, hlw]
        omega
      rw [e1] at h9
      simp only [List.count_append, List.count_singleton, beq_iff_eq]
      split_ifs at h9 ⊢ <;> omega
    amounts := by
      have h1 := sum_map_set_int Lane.amount s.lanes i l { l with w := .send s.gen.cnt } hl
      have h2 := sum_map_set_int passed s.lanes i l { l with w := .send s.gen.cnt } hl
      have := h.amounts
      simp only [passed, List.length_append, List.length_singleton] at *
      rw [h1, h2]
      simp only [wrap64] at *
      omega
    amtExact := by
      intro hlt
      have hlt' : (s.emitted.length : Int) < 9223372036854775808 := by
        simp only [List.length_append, List.length_singleton] at hlt
        push_cast at hlt
        omega
      have h1 := sum_map_set_int Lane.amount s.lanes i l { l with w := .send s.gen.cnt } hl
      have h2 := sum_map_set_int passed s.lanes i l { l with w := .send s.gen.cnt } hl
      have := h.amtExact hlt'
      simp only [passed, List.length_append, List.length_singleton] at *
      rw [h1, h2]
      omega }

theorem isInt64_wrap64 (x : Int) : isInt64 (wrap64 x) := by
  simp only [isInt64, wrap64]
  omega

theorem inv_timeout {N : Nat} {s s' : State} (h : Inv N s)
    (hs : step N s .timeout = some s') : Inv N s' := by
  unfold step at hs
  rw [if_neg (by simp [h.noPanic])] at hs
  simp only at hs
  split at hs
  · cases hs
  simp only [Option.some.injEq] at hs
  subst hs
  exact { h with }

theorem inv_genDone {N : Nat} {s s' : State} (h : Inv N s)
    (hs : step N s .genDone = some s') : Inv N s' := by
  unfold step at hs
  rw [if_neg (by simp [h.noPanic])] at hs
  simp only at hs
  split at hs
  swap
  · cases hs
  split at hs
  · cases hs
  rename_i g hg
  simp only [Option.some.injEq] at hs
  subst hs
  obtain ⟨hpc, rfl⟩ := gen_ctxDone_iff.1 hg
  have := h.cnt
  have := h.inSum
  have := h.inCount
  have := h.genStarted
  have := h.obs
  have := h.chIn
  exact { h with
    genStarted := by simp_all
    genFatal := by simp
    notYet := by simp
    chIn := by simp_all
    obs := by simp_all
    cnt := by simp_all
    inSum := by simp_all
    inCount := by simp_all }

theorem inv_obsSum {N : Nat} {s s' : State} (h : Inv N s)
    (hs : step N s .obsSum = some s') : Inv N s' := by
  unfold step at hs
  rw [if_neg (by simp [h.noPanic])] at hs
  simp only at hs
  split at hs
  swap
  · cases hs
  rename_i hc
  obtain ⟨hpc, hobs⟩ := hc
  simp only [Option.some.injEq] at hs
  subst hs
  have hsum := h.inSum
  simp only [hpc, hobs, and_self, if_true] at hsum
  exact { h with
    obs := fun _ => hpc
    inSum := by
      simp only [hpc, true_and, Bool.true_eq_false, if_false]
      simp only [wrap64] at hsum ⊢
      omega
    inSumR := isInt64_wrap64 _ }

theorem inv_obsCount {N : Nat} {s s' : State} (h : Inv N s)
    (hs : step N s .obsCount = some s') : Inv N s' := by
  unfold step at hs
  rw [if_neg (by simp [h.noPanic])] at hs
  simp only at hs
  split at hs
  swap
  · cases hs
  rename_i hobs
  split at hs
  · cases hs
  rename_i g hg
  simp only [Option.some.injEq] at hs
  subst hs
  obtain ⟨hpc, -, rfl⟩ := gen_fn_iff.1 hg
  have hcnt := h.cnt
  have hsum := h.inSum
  have hcount := h.inCount
  have := h.genStarted
  have := h.chIn
  simp only [hpc, hobs, true_or, if_true, Bool.true_eq_false, and_false, if_false] at hcnt hsum hcount
  exact { h with
    genStarted := by simp_all
    genFatal := by simp
    notYet := by simp
    chIn := by simp_all
    obs := by simp
    cnt := by simpa using hcnt
    inSum := by simpa using hsum
    inCount := by
      simp only [reduceCtorEq, if_false]
      simp only [wrap64] at hcount ⊢
      omega
    inCountR := isInt64_wrap64 _ }

theorem inv_genIncr {N : Nat} {s s' : State} (h : Inv N s)
    (hs : step N s .genIncr = some s') : Inv N s' := by
  unfold step at hs
  rw [if_neg (by simp [h.noPanic])] at hs
  simp only at hs
  split at hs
  · cases hs
  rename_i g hg
  simp only [Option.some.injEq] at hs
  subst hs
  obtain ⟨hpc, rfl⟩ := gen_incr_iff.1 hg
  have hcnt := h.cnt
  have hsum := h.inSum
  have hcount := h.inCount
  have := h.genStarted
  have := h.chIn
  have hobs := h.obs
  simp only [hpc, or_true, if_true, reduceCtorEq, false_and, if_false] at hcnt hsum hcount hobs
  exact { h with
    genStarted := by simp_all
    genFatal := by simp
    notYet := by simp
    chIn := by simp_all
    obs := by simpa using hobs
    cnt := by
      simp only [reduceCtorEq, or_self, if_false]
      rw [hcnt]
      simp only [wrap64]
      omega
    inSum := by simpa using hsum
    inCount := by simpa using hcount }

theorem inv_genClose {N : Nat} {s s' : State} (h : Inv N s)
    (hs : step N s .genClose = some s') : Inv N s' := by
  unfold step at hs
  rw [if_neg (by simp [h.noPanic])] at hs
  simp only at hs
  split at hs
  · cases hs
  rename_i g hg
  obtain ⟨hpc, rfl⟩ := gen_close_iff.1 hg
  have hcin : s.chInClosed = false := by
    have := h.chIn
    cases hc : s.chInClosed <;> simp_all
  rw [if_neg (by simp [hcin])] at hs
  simp only [Option.some.injEq] at hs
  subst hs
  have hcnt := h.cnt
  have hsum := h.inSum
  have hcount := h.inCount
  have := h.genStarted
  have hobs := h.obs
  simp only [hpc, reduceCtorEq, or_self, if_false, false_and] at hcnt hsum hcount hobs
  exact { h with
    genStarted := by simp_all
    genFatal := by simp
    notYet := by simp
    chIn := by simp
    obs := by simpa using hobs
    cnt := by simpa using hcnt
    inSum := by simpa using hsum
    inCount := by simpa using hcount
    lane := fun j l hl => { h.lane j l hl with wEnd := fun _ => rfl } }

theorem worker_outOk_iff {a b : Bool} {w w' : WorkerPC} :
    Worker a b w .outOk = some w' ↔ w = .entry ∧ b = false ∧ w' = .checkIn := by
  cases w <;> cases b <;> simp [Worker, eq_comm]

theorem worker_inOk_iff {a b : Bool} {w w' : WorkerPC} :
    Worker a b w .inOk = some w' ↔ w = .checkIn ∧ a = false ∧ w' = .recv := by
  cases w <;> cases a <;> simp [Worker, eq_comm]

theorem worker_sleep_iff {a b : Bool} {w w' : WorkerPC} :
    Worker a b w .sleep = some w' ↔ w = .sleep ∧ w' = .recv := by
  cases w <;> simp [Worker, eq_comm]

theorem worker_inClosed_iff {a b : Bool} {w w' : WorkerPC} :
    Worker a b w .inClosed = some w' ↔ w = .recv ∧ w' = .closing := by
  cases w <;> simp [Worker, eq_comm]

theorem worker_send_iff {a b : Bool} {w w' : WorkerPC} {v : Int} :
    Worker a b w (.send v) = some w' ↔ w = .send v ∧ w' = .sleep := by
  cases w <;> simp [Worker, eq_comm]

theorem worker_close_iff {a b : Bool} {w w' : WorkerPC} :
    Worker a b w .close = some w' ↔ w = .closing ∧ w' = .done := by
  cases w <;> simp [Worker, eq_comm]

theorem worker_fatal_iff {a b : Bool} {w w' : WorkerPC} :
    Worker a b w .fatal = some w' ↔
      ((w = .entry ∧ b = true) ∨ (w = .checkIn ∧ a = true)) ∧ w' = .fatal := by
  cases w <;> cases a <;> cases b <;> simp [Worker, eq_comm]

/-- A step of a worker that neither takes nor hands over a value and does not
close `outs[i]` keeps the invariant. -/
theorem inv_workerLocal {N : Nat} {s : State} {i : Nat} {l : Lane} {w' : WorkerPC}
    (h : Inv N s) (hl : s.lanes[i]? = some l)
    (h1 : l.w ≠ .notStarted) (h2 : l.w ≠ .done) (h3 : ∀ v, l.w ≠ .send v)
    (h4 : w' ≠ .notStarted) (h5 : w' ≠ .done) (h6 : ∀ v, w' ≠ .send v) (h7 : w' ≠ .fatal)
    (h8 : w' = .closing → s.chInClosed = true) :
    Inv N { s with lanes := s.lanes.set i { l with w := w' } } := by
  have hL := h.lane i l hl
  exact { h with
    len := by simp [h.len]
    lane := by
      refine lanes_set s.lanes i _ h.lane ?_ (fun _ _ _ hj => hj)
      exact { hL with
        wStarted := by
          have := hL.wStarted
          simp_all
        outC := by
          have := hL.outC
          simp_all
        wEnd := by
          intro hw
          rcases hw with hw | hw
          · exact h8 hw
          · exact absurd hw h5
        amtB := by
          intro hlt
          have := hL.amtB hlt
          simp only [pend, pendW, pendC] at this ⊢
          omega
        wFatal := h7 }
    wgEq := by
      have := sum_map_set_nat active s.lanes i l { l with w := w' } hl
      have := h.wgEq
      simp only [active] at *
      omega
    flow := by
      intro x
      have h9 := sum_map_set_nat (heldCnt x) s.lanes i l { l with w := w' } hl
      have := h.flow x
      have e1 : heldCnt x { l with w := w' } = heldCnt x l := by
        simp only [heldCnt]
      rw [e1] at h9
      simp only at h9 ⊢
      omega
    amounts := by
      have h9 := sum_map_set_int Lane.amount s.lanes i l { l with w := w' } hl
      have h10 := sum_map_set_int passed s.lanes i l { l with w := w' } hl
      have := h.amounts
      simp only [passed] at *
      rw [h9, h10]
      simp only [wrap64] at *
      omega
    amtExact := by
      intro hlt
      have h9 := sum_map_set_int Lane.amount s.lanes i l { l with w := w' } hl
      have h10 := sum_map_set_int passed s.lanes i l { l with w := w' } hl
      have := h.amtExact hlt
      simp only [passed] at *
      rw [h9, h10]
      omega }

theorem inv_stepWorkerLocal {N : Nat} {s s' : State} {i : Nat} {e : WorkerEvent} (h : Inv N s)
    (he : e = .outOk ∨ e = .inOk ∨ e = .sleep ∨ (e = .inClosed ∧ s.chInClosed = true))
    (hs : stepWorkerLocal s i e = some s') : Inv N s' := by
  unfold stepWorkerLocal at hs
  split at hs
  · cases hs
  rename_i l hl
  split at hs
  · cases hs
  rename_i w hw
  simp only [Option.some.injEq] at hs
  subst hs
  rcases he with rfl | rfl | rfl | ⟨rfl, hc⟩
  · obtain ⟨h1, -, rfl⟩ := worker_outOk_iff.1 hw
    exact inv_workerLocal h hl (by simp [h1]) (by simp [h1]) (by simp [h1]) (by simp) (by simp)
      (by simp) (by simp) (by simp)
  · obtain ⟨h1, -, rfl⟩ := worker_inOk_iff.1 hw
    exact inv_workerLocal h hl (by simp [h1]) (by simp [h1]) (by simp [h1]) (by simp) (by simp)
      (by simp) (by simp) (by simp)
  · obtain ⟨h1, rfl⟩ := worker_sleep_iff.1 hw
    exact inv_workerLocal h hl (by simp [h1]) (by simp [h1]) (by simp [h1]) (by simp) (by simp)
      (by simp) (by simp) (by simp)
  · obtain ⟨h1, rfl⟩ := worker_inClosed_iff.1 hw
    exact inv_workerLocal h hl (by simp [h1]) (by simp [h1]) (by simp [h1]) (by simp) (by simp)
      (by simp) (by simp) (fun _ => hc)

theorem inv_wExit {N : Nat} {s s' : State} {i : Nat} (h : Inv N s)
    (hs : step N s (.wExit i) = some s') : Inv N s' := by
  unfold step at hs
  rw [if_neg (by simp [h.noPanic])] at hs
  simp only at hs
  split at hs
  swap
  · cases hs
  rename_i hc
  exact inv_stepWorkerLocal h (Or.inr (Or.inr (Or.inr ⟨rfl, hc⟩))) hs

theorem inv_wOutOk {N : Nat} {s s' : State} {i : Nat} (h : Inv N s)
    (hs : step N s (.wOutOk i) = some s') : Inv N s' := by
  unfold step at hs
  rw [if_neg (by simp [h.noPanic])] at hs
  exact inv_stepWorkerLocal h (Or.inl rfl) hs

theorem inv_wInOk {N : Nat} {s s' : State} {i : Nat} (h : Inv N s)
    (hs : step N s (.wInOk i) = some s') : Inv N s' := by
  unfold step at hs
  rw [if_neg (by simp [h.noPanic])] at hs
  exact inv_stepWorkerLocal h (Or.inr (Or.inl rfl)) hs

theorem inv_wSleep {N : Nat} {s s' : State} {i : Nat} (h : Inv N s)
    (hs : step N s (.wSleep i) = some s') : Inv N s' := by
  unfold step at hs
  rw [if_neg (by simp [h.noPanic])] at hs
  exact inv_stepWorkerLocal h (Or.inr (Or.inr (Or.inl rfl))) hs

theorem inv_wSend {N : Nat} {s s' : State} {i : Nat} (h : Inv N s)
    (hs : step N s (.wSend i) = some s') : Inv N s' := by
  unfold step at hs
  rw [if_neg (by simp [h.noPanic])] at hs
  simp only at hs
  split at hs
  · cases hs
  rename_i l hl
  have hL := h.lane i l hl
  split at hs
  swap
  · cases hs
  rename_i v hv
  split at hs
  · cases hs
  rename_i w hw
  obtain ⟨-, rfl⟩ := worker_send_iff.1 hw
  have hoc : l.outClosed = false := by
    have := hL.outC
    cases hc : l.outClosed <;> simp_all
  rw [if_neg (by simp [hoc])] at hs
  split at hs
  swap
  · cases hs
  rename_i hc
  simp only [Option.some.injEq] at hs
  subst hs
  exact { h with
    len := by simp [h.len]
    lane := by
      refine lanes_set s.lanes i _ h.lane ?_ (fun _ _ _ hj => hj)
      exact { hL with
        wStarted := by
          have := hL.wStarted
          simp_all
        cStarted := by
          have := hL.cStarted
          simp_all
        outC := by simp [hoc]
        amtB := by
          intro hlt
          have := hL.amtB hlt
          simp only [pend, pendW, pendC, hv, hc] at this ⊢
          omega
        wEnd := by simp
        cEnd := by simp
        wFatal := by simp
        bar := by
          have := hL.bar
          simp_all }
    wgEq := by
      have := sum_map_set_nat active s.lanes i l { l with w := .sleep, c := .incr v } hl
      have := h.wgEq
      simp only [active, hc] at *
      omega
    flow := by
      intro x
      have := sum_map_set_nat (heldCnt x) s.lanes i l { l with w := .sleep, c := .incr v } hl
      have := h.flow x
      simp only [heldCnt, hv, hc] at *
      omega
    amounts := by
      have h1 := sum_map_set_int Lane.amount s.lanes i l { l with w := .sleep, c := .incr v } hl
      have h2 := sum_map_set_int passed s.lanes i l { l with w := .sleep, c := .incr v } hl
      have := h.amounts
      simp only [passed, hc] at *
      rw [h1, h2]
      simp only [wrap64] at *
      omega
    amtExact := by
      intro hlt
      have h1 := sum_map_set_int Lane.amount s.lanes i l { l with w := .sleep, c := .incr v } hl
      have h2 := sum_map_set_int passed s.lanes i l { l with w := .sleep, c := .incr v } hl
      have := h.amtExact hlt
      simp only [passed, hc] at *
      rw [h1, h2]
      omega }

theorem inv_wClose {N : Nat} {s s' : State} {i : Nat} (h : Inv N s)
    (hs : step N s (.wClose i) = some s') : Inv N s' := by
  unfold step at hs
  rw [if_neg (by simp [h.noPanic])] at hs
  simp only at hs
  split at hs
  · cases hs
  rename_i l hl
  have hL := h.lane i l hl
  split at hs
  · cases hs
  rename_i w hw
  obtain ⟨hlw, rfl⟩ := worker_close_iff.1 hw
  have hoc : l.outClosed = false := by
    have := hL.outC
    cases hc : l.outClosed <;> simp_all
  rw [if_neg (by simp [hoc])] at hs
  simp only [Option.some.injEq] at hs
  subst hs
  exact { h with
    len := by simp [h.len]
    lane := by
      refine lanes_set s.lanes i _ h.lane ?_ (fun _ _ _ hj => hj)
      exact { hL with
        wStarted := by
          have := hL.wStarted
          simp_all
        amtB := by
          intro hlt
          have := hL.amtB hlt
          simp only [pend, pendW, pendC, hlw] at this ⊢
          omega
        outC := by simp
        wEnd := fun _ => hL.wEnd (Or.inl hlw)
        cEnd := by simp
        wFatal := by simp }
    wgEq := by
      have := sum_map_set_nat active s.lanes i l { l with w := .done, outClosed := true } hl
      have := h.wgEq
      simp only [active] at *
      omega
    flow := by
      intro x
      have := sum_map_set_nat (heldCnt x) s.lanes i l { l with w := .done, outClosed := true } hl
      have := h.flow x
      simp only [heldCnt, hlw] at *
      omega
    amounts := by
      have h1 := sum_map_set_int Lane.amount s.lanes i l { l with w := .done, outClosed := true } hl
      have h2 := sum_map_set_int passed s.lanes i l { l with w := .done, outClosed := true } hl
      have := h.amounts
      simp only [passed] at *
      rw [h1, h2]
      simp only [wrap64] at *
      omega
    amtExact := by
      intro hlt
      have h1 := sum_map_set_int Lane.amount s.lanes i l { l with w := .done, outClosed := true } hl
      have h2 := sum_map_set_int passed s.lanes i l { l with w := .done, outClosed := true } hl
      have := h.amtExact hlt
      simp only [passed] at *
      rw [h1, h2]
      omega }

theorem pendW_nonneg (w : WorkerPC) : 0 ≤ pendW w := by
  cases w <;> simp [pendW]

theorem le_sum_of_getElem (f : Lane → Nat) (ls : List Lane) (i : Nat) (l : Lane)
    (h : ls[i]? = some l) : f l ≤ (ls.map f).sum := by
  induction ls generalizing i with
  | nil => simp at h
  | cons a t ih =>
    cases i with
    | zero =>
      simp only [List.getElem?_cons_zero, Option.some.injEq] at h
      subst h
      simp only [List.map_cons, List.sum_cons]
      omega
    | succ k =>
      simp only [List.getElem?_cons_succ] at h
      have := ih k h
      simp only [List.map_cons, List.sum_cons]
      omega

theorem inv_cExit {N : Nat} {s s' : State} {i : Nat} (h : Inv N s)
    (hs : step N s (.cExit i) = some s') : Inv N s' := by
  unfold step at hs
  rw [if_neg (by simp [h.noPanic])] at hs
  simp only at hs
  split at hs
  · cases hs
  rename_i l hl
  have hL := h.lane i l hl
  split at hs
  swap
  · cases hs
  rename_i hc
  split at hs
  swap
  · cases hs
  rename_i hoc
  simp only [Option.some.injEq] at hs
  subst hs
  exact { h with
    len := by simp [h.len]
    lane := by
      refine lanes_set s.lanes i _ h.lane ?_ (fun _ _ _ hj => hj)
      exact { hL with
        cStarted := by
          have := hL.cStarted
          simp_all
        amtB := by
          intro hlt
          have := hL.amtB hlt
          simp only [pend, pendW, pendC, hc] at this ⊢
          omega
        cEnd := fun _ => hoc
        bar := by
          have := hL.bar
          simp_all }
    wgEq := by
      have := sum_map_set_nat active s.lanes i l { l with c := .wgDone } hl
      have := h.wgEq
      simp only [active, hc] at *
      omega
    flow := by
      intro x
      have := sum_map_set_nat (heldCnt x) s.lanes i l { l with c := .wgDone } hl
      have := h.flow x
      simp only [heldCnt, hc] at *
      omega
    amounts := by
      have h1 := sum_map_set_int Lane.amount s.lanes i l { l with c := .wgDone } hl
      have h2 := sum_map_set_int passed s.lanes i l { l with c := .wgDone } hl
      have := h.amounts
      simp only [passed, hc] at *
      rw [h1, h2]
      simp only [wrap64] at *
      omega
    amtExact := by
      intro hlt
      have h1 := sum_map_set_int Lane.amount s.lanes i l { l with c := .wgDone } hl
      have h2 := sum_map_set_int passed s.lanes i l { l with c := .wgDone } hl
      have := h.amtExact hlt
      simp only [passed, hc] at *
      rw [h1, h2]
      omega }

theorem inv_cIncr {N : Nat} {s s' : State} {i : Nat} (h : Inv N s)
    (hs : step N s (.cIncr i) = some s') : Inv N s' := by
  unfold step at hs
  rw [if_neg (by simp [h.noPanic])] at hs
  simp only at hs
  split at hs
  · cases hs
  rename_i l hl
  have hL := h.lane i l hl
  split at hs
  swap
  · cases hs
  rename_i v hc
  simp only [Option.some.injEq] at hs
  subst hs
  have hem : s.emitted ≠ [] := by
    intro he
    have h1 := le_sum_of_getElem (heldCnt v) s.lanes i l hl
    have h2 := h.flow v
    have h3 : 1 ≤ heldCnt v l := by
      simp only [heldCnt, hc, if_true]
      omega
    rw [he] at h2
    simp only [List.count_nil] at h2
    omega
  exact { h with
    len := by simp [h.len]
    lane := by
      refine lanes_set s.lanes i _ h.lane ?_ (fun _ _ _ hj => hj)
      exact { hL with
        cStarted := by
          have := hL.cStarted
          simp_all
        cEnd := by simp
        bar := by
          have := hL.bar
          simp_all
        amt := fun he => absurd he hem
        amtB := by
          intro hlt
          have hlt' : (s.emitted.length : Int) < 9223372036854775808 := hlt
          have := hL.amtB hlt'
          have hd := pendW_nonneg l.w
          simp only [pend, pendC, hc] at this ⊢
          have hw : wrap64 (l.amount + 1) = l.amount + 1 := by
            simp only [wrap64]
            omega
          rw [hw]
          omega }
    wgEq := by
      have := sum_map_set_nat active s.lanes i l
        { l with amount := wrap64 (l.amount + 1), c := .send v } hl
      have := h.wgEq
      simp only [active, hc] at *
      omega
    flow := by
      intro x
      have := sum_map_set_nat (heldCnt x) s.lanes i l
        { l with amount := wrap64 (l.amount + 1), c := .send v } hl
      have := h.flow x
      simp only [heldCnt, hc] at *
      omega
    amounts := by
      have h1 := sum_map_set_int Lane.amount s.lanes i l
        { l with amount := wrap64 (l.amount + 1), c := .send v } hl
      have h2 := sum_map_set_int passed s.lanes i l
        { l with amount := wrap64 (l.amount + 1), c := .send v } hl
      have := h.amounts
      simp only [passed, hc] at *
      rw [h1, h2]
      simp only [wrap64] at *
      omega
    amtExact := by
      intro hlt
      have hlt' : (s.emitted.length : Int) < 9223372036854775808 := hlt
      have hb := hL.amtB hlt'
      have hd := pendW_nonneg l.w
      simp only [pend, pendC, hc] at hb
      have hw : wrap64 (l.amount + 1) = l.amount + 1 := by
        simp only [wrap64]
        omega
      have h1 := sum_map_set_int Lane.amount s.lanes i l
        { l with amount := wrap64 (l.amount + 1), c := .send v } hl
      have h2 := sum_map_set_int passed s.lanes i l
        { l with amount := wrap64 (l.amount + 1), c := .send v } hl
      have := h.amtExact hlt'
      simp only [passed, hc] at *
      rw [h1, h2, hw]
      omega }

theorem inv_cSend {N : Nat} {s s' : State} {i : Nat} (h : Inv N s)
    (hs : step N s (.cSend i) = some s') : Inv N s' := by
  unfold step at hs
  rw [if_neg (by simp [h.noPanic])] at hs
  simp only at hs
  split at hs
  · cases hs
  rename_i l hl
  have hL := h.lane i l hl
  split at hs
  swap
  · cases hs
  rename_i v hc
  have hbar : ¬ (s.barrier = .closing ∨ s.barrier = .done) := by
    intro hb
    have := hL.bar hb
    simp_all
  have hco : s.chOutClosed = false := by
    have := h.chOutC
    cases hh : s.chOutClosed <;> simp_all
  rw [if_neg (by simp [hco])] at hs
  split at hs
  swap
  · cases hs
  simp only [Option.some.injEq] at hs
  subst hs
  exact { h with
    len := by simp [h.len]
    lane := by
      refine lanes_set s.lanes i _ h.lane ?_ (fun _ _ _ hj => hj)
      exact { hL with
        cStarted := by
          have := hL.cStarted
          simp_all
        amtB := by
          intro hlt
          have := hL.amtB hlt
          simp only [pend, pendW, pendC, hc] at this ⊢
          omega
        cEnd := by simp
        bar := fun hb => absurd hb hbar }
    wgEq := by
      have := sum_map_set_nat active s.lanes i l { l with c := .recv } hl
      have := h.wgEq
      simp only [active, hc] at *
      omega
    fin := by
      intro hm
      have := (h.fin hm).1
      simp_all
    flow := by
      intro x
      have h9 := sum_map_set_nat (heldCnt x) s.lanes i l { l with c := .recv } hl
      have h10 := h.flow x
      simp only [heldCnt, hc] at h9
      simp only [List.count_append, List.count_singleton, beq_iff_eq]
      split_ifs at h9 ⊢ <;> omega
    amounts := by
      have h1 := sum_map_set_int Lane.amount s.lanes i l { l with c := .recv } hl
      have h2 := sum_map_set_int passed s.lanes i l { l with c := .recv } hl
      have := h.amounts
      simp only [passed, hc, List.length_append, List.length_singleton] at *
      rw [h1, h2]
      push_cast
      simp only [wrap64] at *
      omega
    amtExact := by
      intro hlt
      have h1 := sum_map_set_int Lane.amount s.lanes i l { l with c := .recv } hl
      have h2 := sum_map_set_int passed s.lanes i l { l with c := .recv } hl
      have := h.amtExact hlt
      simp only [passed, hc, List.length_append, List.length_singleton] at *
      rw [h1, h2]
      push_cast
      omega }

theorem inv_cDone {N : Nat} {s s' : State} {i : Nat} (h : Inv N s)
    (hs : step N s (.cDone i) = some s') : Inv N s' := by
  unfold step at hs
  rw [if_neg (by simp [h.noPanic])] at hs
  simp only at hs
  split at hs
  · cases hs
  rename_i l hl
  have hL := h.lane i l hl
  split at hs
  swap
  · cases hs
  rename_i hc
  have hwg : s.wg ≠ 0 := by
    have h1 := le_sum_of_getElem active s.lanes i l hl
    have h2 := h.wgEq
    simp only [active, hc] at h1
    omega
  rw [if_neg hwg] at hs
  simp only [Option.some.injEq] at hs
  subst hs
  exact { h with
    len := by simp [h.len]
    lane := by
      refine lanes_set s.lanes i _ h.lane ?_ (fun _ _ _ hj => hj)
      exact { hL with
        cStarted := by
          have := hL.cStarted
          simp_all
        amtB := by
          intro hlt
          have := hL.amtB hlt
          simp only [pend, pendW, pendC, hc] at this ⊢
          omega
        cEnd := fun _ => hL.cEnd (Or.inl hc)
        bar := by simp }
    wgEq := by
      have := sum_map_set_nat active s.lanes i l { l with c := .done } hl
      have := h.wgEq
      simp only [active, hc] at *
      omega
    flow := by
      intro x
      have := sum_map_set_nat (heldCnt x) s.lanes i l { l with c := .done } hl
      have := h.flow x
      simp only [heldCnt, hc] at *
      omega
    amounts := by
      have h1 := sum_map_set_int Lane.amount s.lanes i l { l with c := .done } hl
      have h2 := sum_map_set_int passed s.lanes i l { l with c := .done } hl
      have := h.amounts
      simp only [passed, hc] at *
      rw [h1, h2]
      simp only [wrap64] at *
      omega
    amtExact := by
      intro hlt
      have h1 := sum_map_set_int Lane.amount s.lanes i l { l with c := .done } hl
      have h2 := sum_map_set_int passed s.lanes i l { l with c := .done } hl
      have := h.amtExact hlt
      simp only [passed, hc] at *
      rw [h1, h2]
      omega }

theorem cSpawned_of_bSpawned {m : MainPC} (j : Nat) (h : bSpawned m) : cSpawned m j := by
  cases m <;> simp_all [bSpawned, cSpawned]

theorem lt_of_getElem {ls : List Lane} {j : Nat} {l : Lane} (h : ls[j]? = some l) :
    j < ls.length := by
  by_contra hc
  rw [List.getElem?_eq_none (by omega)] at h
  cases h

theorem LaneInv.main_congr {m m' : MainPC} {cin : Bool} {b : BarrierPC} {em : List Int}
    {j : Nat} {l : Lane} (h : LaneInv m cin b em j l) (hw : wSpawned m j ↔ wSpawned m' j)
    (hc : cSpawned m j ↔ cSpawned m' j) : LaneInv m' cin b em j l :=
  { h with
    wStarted := by rw [← hw]; exact h.wStarted
    cStarted := by rw [← hc]; exact h.cStarted }

theorem inv_bWake {N : Nat} {s s' : State} (h : Inv N s)
    (hs : step N s .bWake = some s') : Inv N s' := by
  unfold step at hs
  rw [if_neg (by simp [h.noPanic])] at hs
  simp only at hs
  split at hs
  swap
  · cases hs
  rename_i hc
  obtain ⟨hb, hwg⟩ := hc
  simp only [Option.some.injEq] at hs
  subst hs
  have hsp : bSpawned s.main := by
    have := h.barStarted
    by_contra hn
    simp_all
  exact { h with
    lane := by
      intro j l hl
      have hL := h.lane j l hl
      refine { hL with bar := fun _ => ?_ }
      have h1 := le_sum_of_getElem active s.lanes j l hl
      have h2 := h.wgEq
      have h3 : active l = 0 := by omega
      have h4 : l.c ≠ .notStarted := by
        intro h5
        exact hL.cStarted.1 h5 (cSpawned_of_bSpawned j hsp)
      unfold active at h3
      cases hc : l.c <;> simp_all
    barStarted := by
      have := h.barStarted
      simp_all
    chOutC := by
      have := h.chOutC
      simp_all }

theorem inv_bClose {N : Nat} {s s' : State} (h : Inv N s)
    (hs : step N s .bClose = some s') : Inv N s' := by
  unfold step at hs
  rw [if_neg (by simp [h.noPanic])] at hs
  simp only at hs
  split at hs
  swap
  · cases hs
  rename_i hb
  have hco : s.chOutClosed = false := by
    have := h.chOutC
    cases hh : s.chOutClosed <;> simp_all
  rw [if_neg (by simp [hco])] at hs
  simp only [Option.some.injEq] at hs
  subst hs
  exact { h with
    lane := fun j l hl => { h.lane j l hl with bar := fun _ => (h.lane j l hl).bar (Or.inl hb) }
    barStarted := by
      have := h.barStarted
      simp_all
    chOutC := by simp
    fin := by
      intro hm
      have := (h.fin hm).1
      simp_all }

theorem inv_main {N : Nat} {s s' : State} (h : Inv N s)
    (hs : step N s .main = some s') : Inv N s' := by
  unfold step at hs
  rw [if_neg (by simp [h.noPanic])] at hs
  simp only at hs
  unfold main at hs
  have hidx := h.mainIdx
  have hgs := h.genStarted
  have hbs := h.barStarted
  have hwg := h.wgEq
  have hfin := h.fin
  have hsum := h.aggSum
  have hcount := h.aggCount
  split at hs
  · -- go Generator
    rename_i hm
    simp only [Option.some.injEq] at hs
    subst hs
    have hem := h.notYet (hgs.2 hm)
    have hcnt := h.cnt
    have hinS := h.inSum
    have hinC := h.inCount
    have hobs := h.obs
    have hchIn := h.chIn
    simp only [hgs.2 hm, reduceCtorEq, or_self, if_false, false_and, imp_false, iff_false]
      at hcnt hinS hinC hobs hchIn
    simp only [hm] at hidx hbs hwg hfin hsum hcount
    exact { h with
      genStarted := by simp [Gen.start]
      genFatal := by simp [Gen.start]
      notYet := by simp [Gen.start]
      chIn := by simpa [Gen.start] using hchIn
      obs := by simpa [Gen.start] using hobs
      cnt := by simp [Gen.start, hem, wrap64]
      inSum := by simpa [Gen.start] using hinS
      inCount := by simpa [Gen.start] using hinC
      mainIdx := by simp
      lane := fun j l hl => (h.lane j l hl).main_congr (by simp [hm, wSpawned])
        (by simp [hm, cSpawned])
      barStarted := by simpa [bSpawned] using hbs
      wgEq := by simpa using hwg
      fin := by simp
      aggSum := by simpa using hsum
      aggCount := by simpa using hcount }
  · -- the loop that starts the workers
    rename_i i hm
    simp only [hm] at hidx hbs hwg hfin hsum hcount
    split at hs
    · rename_i hi
      split at hs
      · cases hs
      rename_i l hl
      have hL := h.lane i l hl
      simp only [Option.some.injEq] at hs
      subst hs
      have hlw : l.w = .notStarted := by
        have := hL.wStarted
        simp_all [wSpawned]
      exact { h with
        len := by simp [h.len]
        genStarted := by simpa [hm] using hgs
        mainIdx := by
          simp only
          omega
        lane := by
          refine lanes_set s.lanes i _ h.lane ?_ ?_
          · exact { hL with
              wStarted := by simp [wSpawned]
              cStarted := by
                have := hL.cStarted
                simp_all [cSpawned]
              outC := by
                have := hL.outC
                simp_all
              amtB := by
                intro hlt
                have := hL.amtB hlt
                simp only [pend, pendW, pendC, hlw] at this ⊢
                omega
              wEnd := by simp
              wFatal := by simp }
          · intro j l' hj hl'
            refine hl'.main_congr ?_ (by simp [hm, cSpawned])
            simp only [hm, wSpawned]
            omega
        barStarted := by simpa [bSpawned] using hbs
        wgEq := by
          have := sum_map_set_nat active s.lanes i l { l with w := .entry } hl
          simp only [active] at *
          omega
        fin := by simp
        aggSum := by simpa using hsum
        aggCount := by simpa using hcount
        flow := by
          intro x
          have := sum_map_set_nat (heldCnt x) s.lanes i l { l with w := .entry } hl
          have := h.flow x
          simp only [heldCnt, hlw] at *
          omega
        amounts := by
          have h1 := sum_map_set_int Lane.amount s.lanes i l { l with w := .entry } hl
          have h2 := sum_map_set_int passed s.lanes i l { l with w := .entry } hl
          have := h.amounts
          simp only [passed] at *
          rw [h1, h2]
          simp only [wrap64] at *
          omega
        amtExact := by
          intro hlt
          have h1 := sum_map_set_int Lane.amount s.lanes i l { l with w := .entry } hl
          have h2 := sum_map_set_int passed s.lanes i l { l with w := .entry } hl
          have := h.amtExact hlt
          simp only [passed] at *
          rw [h1, h2]
          omega }
    · rename_i hi
      simp only [Option.some.injEq] at hs
      subst hs
      exact { h with
        genStarted := by simpa [hm] using hgs
        mainIdx := by simp
        lane := by
          intro j l hl
          have hl' : s.lanes[j]? = some l := hl
          have := lt_of_getElem hl'
          have := h.len
          refine (h.lane j l hl).main_congr ?_ ?_
          · simp only [hm, wSpawned, iff_true]
            omega
          · simp [hm, cSpawned]
        barStarted := by simpa [bSpawned] using hbs
        wgEq := by simpa using hwg
        fin := by simp
        aggSum := by simpa using hsum
        aggCount := by simpa using hcount }
  · -- wg.Add(1)
    rename_i i hm
    simp only [hm] at hidx hbs hwg hfin hsum hcount
    split at hs
    · rename_i hi
      simp only [Option.some.injEq] at hs
      subst hs
      exact { h with
        genStarted := by simpa [hm] using hgs
        mainIdx := hi
        lane := fun j l hl => (h.lane j l hl).main_congr (by simp [hm, wSpawned])
          (by simp [hm, cSpawned])
        barStarted := by simpa [bSpawned] using hbs
        wgEq := by
          simp only
          omega
        fin := by simp
        aggSum := by simpa using hsum
        aggCount := by simpa using hcount }
    · rename_i hi
      simp only [Option.some.injEq] at hs
      subst hs
      exact { h with
        genStarted := by simpa [hm] using hgs
        mainIdx := by simp
        lane := by
          intro j l hl
          have hl' : s.lanes[j]? = some l := hl
          have := lt_of_getElem hl'
          have := h.len
          refine (h.lane j l hl).main_congr ?_ ?_
          · simp [hm, wSpawned]
          · simp only [hm, cSpawned, iff_true]
            omega
        barStarted := by simpa [bSpawned] using hbs
        wgEq := by simpa using hwg
        fin := by simp
        aggSum := by simpa using hsum
        aggCount := by simpa using hcount }
  · -- go collector
    rename_i i hm
    simp only [hm] at hidx hbs hwg hfin hsum hcount
    split at hs
    · cases hs
    rename_i l hl
    have hL := h.lane i l hl
    simp only [Option.some.injEq] at hs
    subst hs
    have hlc : l.c = .notStarted := by
      have := hL.cStarted
      simp_all [cSpawned]
    have hbar : s.barrier = .notStarted := by simpa [bSpawned] using hbs
    exact { h with
      len := by simp [h.len]
      genStarted := by simpa [hm] using hgs
      mainIdx := by
        simp only
        omega
      lane := by
        refine lanes_set s.lanes i _ h.lane ?_ ?_
        · exact { hL with
            wStarted := by
              have := hL.wStarted
              simp_all [wSpawned]
            cStarted := by simp [cSpawned]
            amtB := by
              intro hlt
              have := hL.amtB hlt
              simp only [pend, pendW, pendC, hlc] at this ⊢
              omega
            cEnd := by simp
            bar := by simp [hbar] }
        · intro j l' hj hl'
          refine hl'.main_congr (by simp [hm, wSpawned]) ?_
          simp only [hm, cSpawned]
          omega
      barStarted := by simpa [bSpawned] using hbs
      wgEq := by
        have := sum_map_set_nat active s.lanes i l { l with c := .recv } hl
        simp only [active, hlc] at *
        omega
      fin := by simp
      aggSum := by simpa using hsum
      aggCount := by simpa using hcount
      flow := by
        intro x
        have := sum_map_set_nat (heldCnt x) s.lanes i l { l with c := .recv } hl
        have := h.flow x
        simp only [heldCnt, hlc] at *
        omega
      amounts := by
        have h1 := sum_map_set_int Lane.amount s.lanes i l { l with c := .recv } hl
        have h2 := sum_map_set_int passed s.lanes i l { l with c := .recv } hl
        have := h.amounts
        simp only [passed, hlc] at *
        rw [h1, h2]
        simp only [wrap64] at *
        omega
      amtExact := by
        intro hlt
        have h1 := sum_map_set_int Lane.amount s.lanes i l { l with c := .recv } hl
        have h2 := sum_map_set_int passed s.lanes i l { l with c := .recv } hl
        have := h.amtExact hlt
        simp only [passed, hlc] at *
        rw [h1, h2]
        omega }
  · -- go barrier
    rename_i hm
    simp only [hm] at hidx hbs hwg hfin hsum hcount
    simp only [Option.some.injEq] at hs
    subst hs
    have hbar : s.barrier = .notStarted := by simpa [bSpawned] using hbs
    have hco := h.chOutC
    exact { h with
      genStarted := by simpa [hm] using hgs
      mainIdx := by simp
      lane := fun j l hl =>
        have h1 : LaneInv MainPC.recv s.chInClosed s.barrier s.emitted j l :=
          (h.lane j l hl).main_congr (by simp [hm, wSpawned]) (by simp [hm, cSpawned])
        { h1 with bar := by simp }
      barStarted := by simp [bSpawned]
      chOutC := by simp_all
      wgEq := by simpa using hwg
      fin := by simp
      aggSum := by simpa using hsum
      aggCount := by simpa using hcount }
  · -- range chOut
    rename_i hm
    simp only [hm] at hidx hbs hwg hfin hsum hcount
    split at hs
    · rename_i v rest hch
      simp only [Option.some.injEq] at hs
      subst hs
      exact { h with
        genStarted := by simpa [hm] using hgs
        mainIdx := by simp
        lane := fun j l hl => (h.lane j l hl).main_congr (by simp [hm, wSpawned])
          (by simp [hm, cSpawned])
        barStarted := by simpa [bSpawned] using hbs
        wgEq := by simpa using hwg
        fin := by simp
        aggSum := by
          simp only [List.sum_append, List.sum_singleton]
          simp only [wrap64] at hsum ⊢
          omega
        aggCount := by
          simp only [List.length_append, List.length_singleton]
          push_cast
          simp only [wrap64] at hcount ⊢
          omega
        flow := by
          intro x
          have h10 := h.flow x
          rw [hch] at h10
          simp only [List.count_cons, List.count_append, List.count_nil, beq_iff_eq] at h10 ⊢
          split_ifs at h10 ⊢ <;> omega
        amounts := by
          have := h.amounts
          rw [hch] at this
          simp only [List.length_append, List.length_singleton, List.length_cons,
            List.length_nil] at this ⊢
          push_cast at this ⊢
          simp only [wrap64] at this ⊢
          omega
        amtExact := by
          intro hlt
          have := h.amtExact hlt
          rw [hch] at this
          simp only [List.length_append, List.length_singleton, List.length_cons,
            List.length_nil] at this ⊢
          push_cast at this ⊢
          omega }
    · rename_i hch
      split at hs
      swap
      · cases hs
      rename_i hco
      simp only [Option.some.injEq] at hs
      subst hs
      exact { h with
        genStarted := by simpa [hm] using hgs
        mainIdx := by simp
        lane := fun j l hl => (h.lane j l hl).main_congr (by simp [hm, wSpawned])
          (by simp [hm, cSpawned])
        barStarted := by simpa [bSpawned] using hbs
        wgEq := by simpa using hwg
        fin := fun _ => ⟨hco, hch⟩
        aggSum := by simpa using hsum
        aggCount := by simpa using hcount }
  · -- sum += resVal
    rename_i v hm
    simp only [hm] at hidx hbs hwg hfin hsum hcount
    simp only [Option.some.injEq] at hs
    subst hs
    exact { h with
      genStarted := by simpa [hm] using hgs
      mainIdx := by simp
      lane := fun j l hl => (h.lane j l hl).main_congr (by simp [hm, wSpawned])
        (by simp [hm, cSpawned])
      barStarted := by simpa [bSpawned] using hbs
      wgEq := by simpa using hwg
      fin := by simp
      aggSum := by
        simp only [wrap64] at hsum ⊢
        omega
      sumR := isInt64_wrap64 _
      aggCount := by simpa using hcount }
  · -- count++
    rename_i hm
    simp only [hm] at hidx hbs hwg hfin hsum hcount
    simp only [Option.some.injEq] at hs
    subst hs
    exact { h with
      genStarted := by simpa [hm] using hgs
      mainIdx := by simp
      lane := fun j l hl => (h.lane j l hl).main_congr (by simp [hm, wSpawned])
        (by simp [hm, cSpawned])
      barStarted := by simpa [bSpawned] using hbs
      wgEq := by simpa using hwg
      fin := by simp
      aggSum := by simpa using hsum
      aggCount := by
        simp only [wrap64] at hcount ⊢
        omega
      countR := isInt64_wrap64 _ }
  · cases hs

/-! ## Reachable states -/

theorem inv_init (N : Nat) (expired : Bool) : Inv N (init N expired) :=
  { noPanic := rfl
    len := by simp [init]
    genStarted := by simp [init]
    genFatal := by simp [init]
    notYet := by simp [init]
    chIn := by simp [init]
    obs := by simp [init]
    cnt := by simp [init, wrap64]
    emitted := by simp [init, sentList]
    inSum := by simp [init]
    inSumR := by simp [init, isInt64]
    inCount := by simp [init]
    inCountR := by simp [init, isInt64]
    mainIdx := by simp [init]
    lane := by
      intro j l hl
      simp only [init, List.getElem?_replicate] at hl
      split at hl
      swap
      · cases hl
      simp only [Option.some.injEq] at hl
      subst hl
      exact { wStarted := by simp [init, wSpawned]
              cStarted := by simp [init, cSpawned]
              outC := by simp
              wEnd := by simp
              cEnd := by simp
              wFatal := by simp
              bar := by simp [init]
              amt := by simp
              amtB := by simp [init, pend, pendW, pendC] }
    barStarted := by simp [init, bSpawned]
    chOutC := by simp [init]
    wgEq := by simp [init, active]
    fin := by simp [init]
    aggSum := by simp [init]
    sumR := by simp [init, isInt64]
    aggCount := by simp [init]
    countR := by simp [init, isInt64]
    flow := by simp [init, heldCnt]
    amounts := by simp [init, passed]
    amtExact := by simp [init, passed] }

theorem inv_step {N : Nat} {s s' : State} {a : Action} (h : Inv N s)
    (hs : step N s a = some s') : Inv N s' := by
  cases a with
  | timeout => exact inv_timeout h hs
  | main => exact inv_main h hs
  | genEnter => exact inv_genEnter h hs
  | genDone => exact inv_genDone h hs
  | genSend i => exact inv_genSend h hs
  | obsSum => exact inv_obsSum h hs
  | obsCount => exact inv_obsCount h hs
  | genIncr => exact inv_genIncr h hs
  | genClose => exact inv_genClose h hs
  | wOutOk i => exact inv_wOutOk h hs
  | wInOk i => exact inv_wInOk h hs
  | wExit i => exact inv_wExit h hs
  | wSend i => exact inv_wSend h hs
  | wSleep i => exact inv_wSleep h hs
  | wClose i => exact inv_wClose h hs
  | cExit i => exact inv_cExit h hs
  | cIncr i => exact inv_cIncr h hs
  | cSend i => exact inv_cSend h hs
  | cDone i => exact inv_cDone h hs
  | bWake => exact inv_bWake h hs
  | bClose => exact inv_bClose h hs

theorem inv_of_reachable {N : Nat} {expired : Bool} {s : State}
    (h : Reachable N expired s) : Inv N s := by
  induction h with
  | start => exact inv_init N expired
  | next a _ hs ih => exact inv_step ih hs

theorem reachable_of_run {N : Nat} {expired : Bool} {s s' : State} (as : List Action)
    (h : Reachable N expired s) (hr : runActions N s as = some s') : Reachable N expired s' := by
  induction as generalizing s with
  | nil =>
    simp only [runActions, Option.some.injEq] at hr
    subst hr
    exact h
  | cons a t ih =>
    simp only [runActions] at hr
    split at hr
    · cases hr
    · rename_i s1 h1
      exact ih (Reachable.next a h h1) hr

/-! ## The state in which the loop of line 118 has ended -/

theorem getElem_of_mem {ls : List Lane} {l : Lane} (h : l ∈ ls) :
    ∃ j : Nat, ls[j]? = some l := by
  obtain ⟨j, hj⟩ := List.mem_iff_getElem?.1 h
  exact ⟨j, hj⟩

theorem sum_map_eq_zero (f : Lane → Nat) (ls : List Lane) (h : ∀ l ∈ ls, f l = 0) :
    (ls.map f).sum = 0 := by
  induction ls with
  | nil => rfl
  | cons a t ih =>
    simp only [List.map_cons, List.sum_cons]
    rw [h a (List.mem_cons_self a t), ih (fun l hl => h l (List.mem_cons_of_mem a hl))]

theorem sum_map_eq_zero_int (f : Lane → Int) (ls : List Lane) (h : ∀ l ∈ ls, f l = 0) :
    (ls.map f).sum = 0 := by
  induction ls with
  | nil => rfl
  | cons a t ih =>
    simp only [List.map_cons, List.sum_cons]
    rw [h a (List.mem_cons_self a t), ih (fun l hl => h l (List.mem_cons_of_mem a hl))]
    rfl

/-- When the loop of line 118 has ended every goroutine has returned, the
channels are closed and empty, and the values received are the values emitted,
in some order. -/
theorem final_facts {N : Nat} {s : State} (h : Inv N s) (hN : 1 ≤ N)
    (hf : s.main = .finished) :
    s.gen.pc = .done ∧ (∀ l ∈ s.lanes, l.w = .done ∧ l.c = .done) ∧ s.chOut = [] ∧
      s.received.Perm s.emitted := by
  obtain ⟨hco, hch⟩ := h.fin hf
  have hb : s.barrier = .done := h.chOutC.1 hco
  have hl : ∀ l ∈ s.lanes, l.w = .done ∧ l.c = .done := by
    intro l hl
    obtain ⟨j, hj⟩ := getElem_of_mem hl
    have hL := h.lane j l hj
    have hc := hL.bar (Or.inr hb)
    exact ⟨hL.outC.1 (hL.cEnd (Or.inr hc)), hc⟩
  have hg : s.gen.pc = .done := by
    have h0 : 0 < s.lanes.length := by
      rw [h.len]
      omega
    have hj : s.lanes[0]? = some (s.lanes[0]) := List.getElem?_eq_getElem h0
    have hL := h.lane 0 _ hj
    have hw := (hl _ (List.getElem_mem h0)).1
    exact h.chIn.1 (hL.wEnd (Or.inr hw))
  refine ⟨hg, hl, hch, ?_⟩
  rw [List.perm_iff_count]
  intro x
  have h1 := h.flow x
  have h2 : (s.lanes.map (heldCnt x)).sum = 0 := by
    apply sum_map_eq_zero
    intro l hl'
    obtain ⟨hw, hc⟩ := hl l hl'
    simp [heldCnt, hw, hc]
  rw [h2, hch] at h1
  simpa using h1

theorem final_count {N : Nat} {s : State} (h : Inv N s) (hN : 1 ≤ N)
    (hf : s.main = .finished) :
    s.count = s.inputCount ∧ s.sum = s.inputSum ∧ s.inputCount = wrap64 s.emitted.length ∧
      s.inputSum = wrap64 s.emitted.sum ∧
      wrap64 (s.lanes.map Lane.amount).sum = s.inputCount := by
  obtain ⟨hg, hl, hch, hp⟩ := final_facts h hN hf
  have h1 := h.aggSum
  have h2 := h.aggCount
  have h3 := h.inSum
  have h4 := h.inCount
  have h5 := h.sumR
  have h6 := h.countR
  have h7 := h.inSumR
  have h8 := h.inCountR
  have h9 := h.amounts
  have h10 : (s.lanes.map passed).sum = 0 := by
    apply sum_map_eq_zero_int
    intro l hl'
    simp [passed, (hl l hl').2]
  rw [hp.length_eq, h10, hch] at h9
  rw [hp.sum_eq] at h1
  rw [hp.length_eq] at h2
  simp only [hf, hg, reduceCtorEq, false_and, if_false, List.length_nil] at h1 h2 h3 h4 h9
  simp only [wrap64, isInt64] at *
  omega

/-! ## The lists 1, ..., k -/

theorem sentList_eq_oneTo (k : Nat) (h : (k : Int) < 9223372036854775808) :
    sentList k = oneTo k := by
  simp only [sentList, oneTo]
  apply List.map_congr_left
  intro i hi
  rw [List.mem_range] at hi
  simp only [wrap64]
  omega

theorem mem_oneTo (k : Nat) (v : Int) : v ∈ oneTo k ↔ 1 ≤ v ∧ v ≤ k := by
  simp only [oneTo, List.mem_map, List.mem_range]
  constructor
  · rintro ⟨i, hi, rfl⟩
    omega
  · intro hv
    refine ⟨(v - 1).toNat, ?_, ?_⟩ <;> omega

theorem oneTo_nodup (k : Nat) : (oneTo k).Nodup := by
  refine List.Nodup.map ?_ (List.nodup_range k)
  intro a b hab
  simp only at hab
  omega

theorem oneTo_succ (k : Nat) : oneTo (k + 1) = oneTo k ++ [(k : Int) + 1] := by
  simp [oneTo, List.range_succ]

theorem two_mul_sum_oneTo (k : Nat) : 2 * (oneTo k).sum = (k : Int) * (k + 1) := by
  induction k with
  | zero => simp [oneTo]
  | succ n ih =>
    rw [oneTo_succ, List.sum_append, List.sum_singleton, mul_add, ih]
    push_cast
    ring

theorem length_oneTo (k : Nat) : (oneTo k).length = k := by
  simp [oneTo]

theorem sum_oneTo (k : Nat) : (oneTo k).sum = (k : Int) * (k + 1) / 2 := by
  have := two_mul_sum_oneTo k
  omega

theorem sum_oneTo_ge (k : Nat) : (k : Int) ≤ (oneTo k).sum := by
  induction k with
  | zero => simp [oneTo]
  | succ n ih =>
    rw [oneTo_succ, List.sum_append, List.sum_singleton]
    push_cast
    omega


/-! ## The example runs -/

theorem demoFinal_run : runActions 2 (init 2 false) demoRun = some demoFinal := by
  decide

theorem demoFinal_reachable : Reachable 2 false demoFinal :=
  reachable_of_run demoRun Reachable.start demoFinal_run

theorem lateFinal_run : runActions 1 (init 1 true) lateRun = some lateFinal := by
  decide

theorem idleFinal_run : runActions 2 (init 2 true) idleRun = some idleFinal := by
  decide

theorem blocked_run : runActions 2 (init 2 true) blockedRun = some blocked := by
  decide

/-! ## The final checks -/

theorem foldl_sub_wrap (xs : List Int) (a : Int) (ha : isInt64 a) :
    xs.foldl (fun acc v => wrap64 (acc - v)) a = wrap64 (a - xs.sum) := by
  induction xs generalizing a with
  | nil =>
    simp only [List.foldl_nil, List.sum_nil, wrap64, isInt64] at *
    omega
  | cons x t ih =>
    rw [List.foldl_cons, ih _ (isInt64_wrap64 _), List.sum_cons]
    simp only [wrap64]
    omega

theorem checkResults_eq_none_iff (inputSum inputCount sum count : Int) (amounts : List Int)
    (hc : isInt64 inputCount) :
    checkResults inputSum inputCount sum count amounts = none ↔
      inputSum = sum ∧ inputCount = count ∧ wrap64 (inputCount - amounts.sum) = 0 := by
  unfold checkResults
  rw [foldl_sub_wrap _ _ hc]
  by_cases h1 : inputSum = sum <;> by_cases h2 : inputCount = count <;>
    by_cases h3 : wrap64 (inputCount - amounts.sum) = 0 <;> simp [h1, h2, h3]

theorem final_verdict {N : Nat} {s : State} (h : Inv N s) (hN : 1 ≤ N)
    (hf : s.main = .finished) : verdict s = none := by
  obtain ⟨h1, h2, -, -, h5⟩ := final_count h hN hf
  unfold verdict
  rw [checkResults_eq_none_iff _ _ _ _ _ h.inCountR]
  refine ⟨h2.symm, h1.symm, ?_⟩
  have := h.inCountR
  simp only [wrap64, isInt64] at *
  omega

/-! ## Conservation, partition, no duplication -/

/-- C1. When the loop of line 118 has ended (`chOut` closed and drained), `count`
equals `inputCount` and `sum` equals `inputSum`, for every number of workers
`N ≥ 1`, every deadline and every interleaving. -/
theorem C1_conservation (N : Nat) (expired : Bool) (s : State) (hN : 1 ≤ N)
    (hr : Reachable N expired s) (hf : s.main = .finished) :
    (s.chOutClosed = true ∧ s.chOut = []) ∧ s.count = s.inputCount ∧ s.sum = s.inputSum := by
  have h := inv_of_reachable hr
  obtain ⟨h1, h2, -⟩ := final_count h hN hf
  exact ⟨h.fin hf, h1, h2⟩

/-- C1, at the run `demoRun` with two workers and three values. -/
theorem C1_conservation_witness :
    (1 ≤ 2 ∧ Reachable 2 false demoFinal ∧ demoFinal.main = .finished) ∧
      ((demoFinal.chOutClosed = true ∧ demoFinal.chOut = []) ∧
        demoFinal.count = demoFinal.inputCount ∧ demoFinal.sum = demoFinal.inputSum) :=
  ⟨⟨by decide, demoFinal_reachable, rfl⟩,
    C1_conservation 2 false demoFinal (by decide) demoFinal_reachable rfl⟩

/-- C2. When the loop of line 118 has ended, the entries of `amounts` add up to
`inputCount` in int64 arithmetic, the loop of lines 134-136 leaves 0 in
`inputCount`, and no final check fires; when fewer than 2^63 values were
emitted no entry is negative and the entries add up to `inputCount` as
integers. -/
theorem C2_partition (N : Nat) (expired : Bool) (s : State) (hN : 1 ≤ N)
    (hr : Reachable N expired s) (hf : s.main = .finished) :
    wrap64 (s.lanes.map Lane.amount).sum = s.inputCount ∧
      (s.lanes.map Lane.amount).foldl (fun acc v => wrap64 (acc - v)) s.inputCount = 0 ∧
      verdict s = none ∧
      ((s.emitted.length : Int) < 9223372036854775808 →
        (s.lanes.map Lane.amount).sum = s.inputCount ∧ ∀ l ∈ s.lanes, 0 ≤ l.amount) := by
  have h := inv_of_reachable hr
  obtain ⟨-, -, h3, -, h5⟩ := final_count h hN hf
  refine ⟨h5, ?_, final_verdict h hN hf, fun hlt => ⟨?_, fun l hl => ?_⟩⟩
  · rw [foldl_sub_wrap _ _ h.inCountR]
    have := h.inCountR
    simp only [wrap64, isInt64] at *
    omega
  · obtain ⟨-, hl, hch, hp⟩ := final_facts h hN hf
    have h6 := h.amtExact hlt
    have h7 : (s.lanes.map passed).sum = 0 := by
      apply sum_map_eq_zero_int
      intro l hl'
      simp [passed, (hl l hl').2]
    rw [h7, hch, hp.length_eq] at h6
    rw [h6, h3]
    simp only [wrap64, List.length_nil]
    push_cast
    omega
  · obtain ⟨j, hj⟩ := getElem_of_mem hl
    exact ((h.lane j l hj).amtB hlt).1

/-- C2, at the run `demoRun` with two workers and three values. -/
theorem C2_partition_witness :
    (1 ≤ 2 ∧ Reachable 2 false demoFinal ∧ demoFinal.main = .finished) ∧
      (wrap64 (demoFinal.lanes.map Lane.amount).sum = demoFinal.inputCount ∧
        (demoFinal.lanes.map Lane.amount).foldl (fun acc v => wrap64 (acc - v))
          demoFinal.inputCount = 0 ∧
        verdict demoFinal = none) ∧
      demoFinal.lanes.map Lane.amount = [2, 1] ∧ demoFinal.inputCount = 3 :=
  have h := C2_partition 2 false demoFinal (by decide) demoFinal_reachable rfl
  ⟨⟨by decide, demoFinal_reachable, rfl⟩, ⟨h.1, h.2.1, h.2.2.1⟩, rfl, rfl⟩

/-- C3. When the loop of line 118 has ended, the values it received are the
values accepted on `chIn`, each exactly once, in some order; when fewer than
2^63 values were emitted they have no repetition and are exactly
`1, ..., inputCount`. -/
theorem C3_no_duplication_no_loss (N : Nat) (expired : Bool) (s : State) (hN : 1 ≤ N)
    (hr : Reachable N expired s) (hf : s.main = .finished) :
    s.received.Perm s.emitted ∧
      ((s.emitted.length : Int) < 9223372036854775808 →
        s.emitted = oneTo s.emitted.length ∧ s.inputCount = s.emitted.length ∧
        s.received.Nodup ∧ s.received.Perm (oneTo s.inputCount.toNat) ∧
        ∀ v, v ∈ s.received ↔ 1 ≤ v ∧ v ≤ s.inputCount) := by
  have h := inv_of_reachable hr
  obtain ⟨-, -, -, hp⟩ := final_facts h hN hf
  obtain ⟨-, -, h3, -⟩ := final_count h hN hf
  refine ⟨hp, fun hK => ?_⟩
  have he : s.emitted = oneTo s.emitted.length := by
    rw [← sentList_eq_oneTo _ hK]
    exact h.emitted
  have hc : s.inputCount = s.emitted.length := by
    rw [h3]
    simp only [wrap64]
    omega
  have hn : s.inputCount.toNat = s.emitted.length := by
    rw [hc]
    exact Int.toNat_ofNat _
  have hp' : s.received.Perm (oneTo s.emitted.length) := by
    rw [← he]
    exact hp
  refine ⟨he, hc, hp'.nodup_iff.2 (oneTo_nodup _), ?_, ?_⟩
  · rw [hn]
    exact hp'
  · intro v
    rw [hp'.mem_iff, mem_oneTo, hc]

/-- C3, at the run `demoRun`: the values arrive as 2, 1, 3. -/
theorem C3_no_duplication_no_loss_witness :
    (1 ≤ 2 ∧ Reachable 2 false demoFinal ∧ demoFinal.main = .finished ∧
      (demoFinal.emitted.length : Int) < 9223372036854775808) ∧
      demoFinal.received = [2, 1, 3] ∧
      demoFinal.received.Nodup ∧ demoFinal.received.Perm (oneTo demoFinal.inputCount.toNat) :=
  have h := C3_no_duplication_no_loss 2 false demoFinal (by decide) demoFinal_reachable rfl
  have hK : (demoFinal.emitted.length : Int) < 9223372036854775808 := by decide
  ⟨⟨by decide, demoFinal_reachable, rfl, hK⟩, rfl, (h.2 hK).2.2.1, (h.2 hK).2.2.2.1⟩

/-! ## Producer statistics -/

/-- C8. After `Generator` has emitted exactly `K` values and the observer has
returned for each of them, with `K(K+1)/2 < 2^63`, `inputCount` is `K` and
`inputSum` is `K(K+1)/2`; at the end of a run `sum` is `K(K+1)/2` as well, for
`K = inputCount`. -/
theorem C8_producer_statistics (N : Nat) (expired : Bool) (s : State) (K : Nat)
    (hr : Reachable N expired s) (hK : s.emitted.length = K)
    (hb : (K : Int) * (K + 1) / 2 < 9223372036854775808) (hpc : s.gen.pc ≠ .callFn) :
    s.inputCount = K ∧ s.inputSum = (K : Int) * (K + 1) / 2 ∧
      (1 ≤ N → s.main = .finished →
        s.sum = s.inputCount * (s.inputCount + 1) / 2 ∧ s.count = K) := by
  have h := inv_of_reachable hr
  have hK63 : (K : Int) < 9223372036854775808 := by
    have h1 := sum_oneTo_ge K
    rw [sum_oneTo] at h1
    omega
  have he : s.emitted = oneTo K := by
    rw [← sentList_eq_oneTo _ hK63, ← hK]
    exact h.emitted
  have h1 := h.inSum
  have h2 := h.inCount
  have h3 := h.inSumR
  have h4 := h.inCountR
  have h5 : (0 : Int) ≤ (K : Int) * (K + 1) / 2 := by
    have := sum_oneTo_ge K
    rw [sum_oneTo] at this
    omega
  rw [he, sum_oneTo] at h1
  rw [hK] at h2
  simp only [hpc, false_and, if_false] at h1 h2
  have hc : s.inputCount = K := by
    simp only [wrap64, isInt64] at *
    omega
  have hs : s.inputSum = (K : Int) * (K + 1) / 2 := by
    simp only [wrap64, isInt64] at *
    omega
  refine ⟨hc, hs, fun hN hf => ?_⟩
  obtain ⟨h6, h7, -⟩ := final_count h hN hf
  rw [h7, hs, h6, hc]
  exact ⟨rfl, rfl⟩

/-- C8, at the run `demoRun`: three values, `inputSum = 6`. -/
theorem C8_producer_statistics_witness :
    (Reachable 2 false demoFinal ∧ demoFinal.emitted.length = 3 ∧
      ((3 : Nat) : Int) * (((3 : Nat) : Int) + 1) / 2 < 9223372036854775808 ∧
      demoFinal.gen.pc ≠ .callFn) ∧
      demoFinal.inputCount = 3 ∧ demoFinal.inputSum = 6 ∧ demoFinal.sum = 6 :=
  have h := C8_producer_statistics 2 false demoFinal 3 demoFinal_reachable rfl (by decide)
    (by decide)
  ⟨⟨demoFinal_reachable, rfl, by decide, by decide⟩, h.1, h.2.1, rfl⟩

/-! ## A deadline that has already passed -/

/-- C9, as stated, fails: with the deadline already passed when `main` starts,
the run `lateRun` still emits the value 1, and `inputCount`, `count`, `sum` and
`amounts[0]` all end as 1. -/
theorem C9_counterexample :
    Reachable 1 true lateFinal ∧ lateFinal.main = .finished ∧
      lateFinal.inputCount = 1 ∧ lateFinal.count = 1 ∧ lateFinal.sum = 1 ∧
      lateFinal.lanes.map Lane.amount = [1] ∧
      ¬ (lateFinal.inputCount = 0 ∧ lateFinal.count = 0 ∧ lateFinal.sum = 0 ∧
        ∀ l ∈ lateFinal.lanes, l.amount = 0) :=
  ⟨reachable_of_run lateRun Reachable.start lateFinal_run, rfl, rfl, rfl, rfl, rfl, by decide⟩

/-- C9, amended. With the deadline already passed when `main` starts, once the
loop of line 118 has ended no final check fires, `count = inputCount` and
`sum = inputSum`; when `Generator` has sent no value, `inputCount`, `count`,
`sum` and every entry of `amounts` are 0. -/
theorem C9_expired_deadline (N : Nat) (s : State) (hN : 1 ≤ N)
    (hr : Reachable N true s) (hf : s.main = .finished) :
    verdict s = none ∧ s.count = s.inputCount ∧ s.sum = s.inputSum ∧
      (s.emitted = [] →
        s.inputCount = 0 ∧ s.count = 0 ∧ s.sum = 0 ∧ ∀ l ∈ s.lanes, l.amount = 0) := by
  have h := inv_of_reachable hr
  obtain ⟨h1, h2, h3, h4, -⟩ := final_count h hN hf
  refine ⟨final_verdict h hN hf, h1, h2, fun he => ?_⟩
  rw [he] at h3 h4
  have h5 : s.inputCount = 0 := by simpa [wrap64] using h3
  have h6 : s.inputSum = 0 := by simpa [wrap64] using h4
  refine ⟨h5, h1.trans h5, h2.trans h6, fun l hl => ?_⟩
  obtain ⟨j, hj⟩ := getElem_of_mem hl
  exact (h.lane j l hj).amt he

/-- C9 amended, at the run `idleRun`: `Generator` takes `ctx.Done()` at once. -/
theorem C9_expired_deadline_witness :
    (1 ≤ 2 ∧ Reachable 2 true idleFinal ∧ idleFinal.main = .finished) ∧
      verdict idleFinal = none ∧ idleFinal.emitted = [] ∧ idleFinal.inputCount = 0 ∧
      idleFinal.count = 0 ∧ idleFinal.sum = 0 ∧ ∀ l ∈ idleFinal.lanes, l.amount = 0 :=
  have hr : Reachable 2 true idleFinal := reachable_of_run idleRun Reachable.start idleFinal_run
  have h := C9_expired_deadline 2 idleFinal (by decide) hr rfl
  ⟨⟨by decide, hr, rfl⟩, h.1, rfl, (h.2.2.2 rfl).1, (h.2.2.2 rfl).2.1, (h.2.2.2 rfl).2.2.1,
    (h.2.2.2 rfl).2.2.2⟩

/-! ## Closure discipline -/

theorem step_chIn {N : Nat} {s s' : State} {a : Action} (hs : step N s a = some s')
    (hp : s'.panicked = false) (hc : s.chInClosed ≠ s'.chInClosed) :
    a = .genClose ∧ s.chInClosed = false := by
  unfold step at hs
  split at hs
  · cases hs
  cases a <;> simp only [main, stepWorkerLocal] at hs <;>
    (repeat' split at hs) <;> cases hs <;> simp_all

theorem step_chOut {N : Nat} {s s' : State} {a : Action} (hs : step N s a = some s')
    (hp : s'.panicked = false) (hc : s.chOutClosed ≠ s'.chOutClosed) :
    a = .bClose ∧ s.chOutClosed = false := by
  unfold step at hs
  split at hs
  · cases hs
  cases a <;> simp only [main, stepWorkerLocal] at hs <;>
    (repeat' split at hs) <;> cases hs <;> simp_all

theorem step_outs {N : Nat} {s s' : State} {a : Action} (hs : step N s a = some s')
    (hp : s'.panicked = false) (i : Nat) (l l' : Lane) (hl : s.lanes[i]? = some l)
    (hl' : s'.lanes[i]? = some l') (hc : l.outClosed ≠ l'.outClosed) :
    a = .wClose i ∧ l.outClosed = false := by
  unfold step at hs
  split at hs
  · cases hs
  cases a <;> simp only [main, stepWorkerLocal] at hs <;>
    (repeat' split at hs) <;> cases hs <;> simp only [List.getElem?_set] at hl' <;>
    (try split at hl') <;> (try split at hl') <;> (try cases hl') <;> simp_all

/-- C5. In every reachable state no goroutine has panicked, so no send has hit
a closed channel and no channel was closed twice; a closed channel's sender has
finished (`Generator` for `chIn`, worker `i` for `outs[i]`, every collector for
`chOut`); no step panics, and a step that closes `chIn`, `outs[i]` or `chOut` is
the `close` of `Generator`, of worker `i` or of the barrier, on an open
channel. -/
theorem C5_closure_discipline (N : Nat) (expired : Bool) (s : State)
    (hr : Reachable N expired s) :
    s.panicked = false ∧
      (s.chInClosed = true → s.gen.pc = .done) ∧
      (∀ l ∈ s.lanes, l.outClosed = true → l.w = .done) ∧
      (s.chOutClosed = true → s.barrier = .done ∧ s.wg = 0 ∧ ∀ l ∈ s.lanes, l.c = .done) ∧
      ∀ a s', step N s a = some s' →
        s'.panicked = false ∧
        (s.chInClosed ≠ s'.chInClosed → a = .genClose ∧ s.chInClosed = false) ∧
        (s.chOutClosed ≠ s'.chOutClosed → a = .bClose ∧ s.chOutClosed = false) ∧
        ∀ i l l', s.lanes[i]? = some l → s'.lanes[i]? = some l' →
          l.outClosed ≠ l'.outClosed → a = .wClose i ∧ l.outClosed = false := by
  have h := inv_of_reachable hr
  refine ⟨h.noPanic, h.chIn.1, ?_, ?_, ?_⟩
  · intro l hl
    obtain ⟨j, hj⟩ := getElem_of_mem hl
    exact (h.lane j l hj).outC.1
  · intro hc
    have hb := h.chOutC.1 hc
    have hl : ∀ l ∈ s.lanes, l.c = .done := by
      intro l hl
      obtain ⟨j, hj⟩ := getElem_of_mem hl
      exact (h.lane j l hj).bar (Or.inr hb)
    refine ⟨hb, ?_, hl⟩
    have h1 := h.wgEq
    have h2 : (s.lanes.map active).sum = 0 := by
      apply sum_map_eq_zero
      intro l hl'
      simp [active, hl l hl']
    have h3 : bSpawned s.main := by
      by_contra hn
      have := h.barStarted.2 hn
      simp_all
    rw [h2] at h1
    revert h1 h3
    cases s.main <;> simp [bSpawned]
  · intro a s' hs
    have hp := (inv_step h hs).noPanic
    exact ⟨hp, step_chIn hs hp, step_chOut hs hp, step_outs hs hp⟩

/-- C5, at the end of the run `demoRun`: all channels are closed, nothing
panicked. -/
theorem C5_closure_discipline_witness :
    Reachable 2 false demoFinal ∧ demoFinal.panicked = false ∧
      demoFinal.chOutClosed = true ∧ ∀ l ∈ demoFinal.lanes, l.c = .done :=
  have h := C5_closure_discipline 2 false demoFinal demoFinal_reachable
  ⟨demoFinal_reachable, h.1, rfl, (h.2.2.2.1 rfl).2.2⟩

/-! ## Absence of deadlock -/

theorem exists_active (ls : List Lane) (h : (ls.map active).sum ≠ 0) :
    ∃ (j : Nat) (l : Lane), ls[j]? = some l ∧ active l ≠ 0 := by
  by_contra hn
  apply h
  apply sum_map_eq_zero
  intro l hl
  obtain ⟨j, hj⟩ := getElem_of_mem hl
  by_contra h0
  exact hn ⟨j, l, hj, h0⟩

theorem exists_enabled {N : Nat} {s : State} (h : Inv N s) (hf : s.main ≠ .finished) :
    ∃ a, a ≠ Action.timeout ∧ (s.cancelled = true → ∀ i, a ≠ Action.genSend i) ∧
      (step N s a).isSome = true := by
  have hp := h.noPanic
  have hlen := h.len
  have hidx := h.mainIdx
  by_cases hb : bSpawned s.main
  swap
  · refine ⟨.main, by simp, by simp, ?_⟩
    cases hm : s.main <;> simp only [hm, bSpawned, not_true_eq_false, not_false_eq_true] at hb hidx
    · simp [step, main, hp, hm]
    · rename_i i
      by_cases hi : i < N
      · have hi' : i < s.lanes.length := by omega
        simp [step, main, hp, hm, hi, List.getElem?_eq_getElem hi']
      · simp [step, main, hp, hm, hi]
    · rename_i i
      by_cases hi : i < N <;> simp [step, main, hp, hm, hi]
    · rename_i i
      have hi' : i < s.lanes.length := by omega
      simp [step, main, hp, hm, List.getElem?_eq_getElem hi']
    · simp [step, main, hp, hm]
  have hbar := h.barStarted
  have hgen := h.genStarted
  have hwgEq := h.wgEq
  cases hm : s.main <;> simp only [hm, bSpawned, not_true_eq_false, not_false_eq_true,
    reduceCtorEq, iff_false, ne_eq] at hb hf hbar hgen hwgEq
  · -- line 118
    cases hch : s.chOut with
    | cons v rest => exact ⟨.main, by simp, by simp, by simp [step, main, hp, hm, hch]⟩
    | nil =>
      by_cases hco : s.chOutClosed = true
      · exact ⟨.main, by simp, by simp, by simp [step, main, hp, hm, hch, hco]⟩
      have hbd : s.barrier ≠ .done := fun hd => hco (h.chOutC.2 hd)
      cases hbp : s.barrier <;> simp only [hbp, not_true_eq_false, ne_eq] at hbar hbd
      swap
      · exact ⟨.bClose, by simp, by simp, by simp [step, hp, hbp, hco]⟩
      by_cases hwg : s.wg = 0
      · exact ⟨.bWake, by simp, by simp, by simp [step, hp, hbp, hwg]⟩
      obtain ⟨j, l, hl, hact⟩ := exists_active s.lanes (by omega)
      have hL := h.lane j l hl
      have hjN : 0 < N := by
        have := lt_of_getElem hl
        omega
      have hcs := hL.cStarted
      simp only [hm, cSpawned, not_true_eq_false, iff_false] at hcs
      cases hc : l.c <;> simp only [hc, active, not_true_eq_false, ne_eq, reduceCtorEq,
        not_false_eq_true] at hact hcs
      · -- collector waits on outs[j]
        by_cases hoc : l.outClosed = true
        · exact ⟨.cExit j, by simp, by simp, by simp [step, hp, hl, hc, hoc]⟩
        have hws := hL.wStarted
        have hwd : l.w ≠ .done := fun hd => hoc (hL.outC.2 hd)
        have hwf := hL.wFatal
        simp only [hm, wSpawned, not_true_eq_false, iff_false] at hws
        cases hw : l.w <;> simp only [hw, not_true_eq_false, ne_eq, reduceCtorEq,
          not_false_eq_true] at hws hwd hwf
        · exact ⟨.wOutOk j, by simp, by simp, by simp [step, stepWorkerLocal, Worker, hp, hl, hw]⟩
        · exact ⟨.wInOk j, by simp, by simp, by simp [step, stepWorkerLocal, Worker, hp, hl, hw]⟩
        · -- worker waits on chIn
          by_cases hci : s.chInClosed = true
          · exact ⟨.wExit j, by simp, by simp, by simp [step, stepWorkerLocal, Worker, hp, hl, hw, hci]⟩
          have hgd : s.gen.pc ≠ .done := fun hd => hci (h.chIn.2 hd)
          have hgf := h.genFatal
          cases hg : s.gen.pc <;> simp only [hg, not_true_eq_false, ne_eq, reduceCtorEq,
            not_false_eq_true] at hgen hgd hgf
          · exact ⟨.genEnter, by simp, by simp, by simp [step, Generator, hp, hg]⟩
          · by_cases hcan : s.cancelled = true
            · exact ⟨.genDone, by simp, by simp, by simp [step, Generator, hp, hg, hcan]⟩
            · exact ⟨.genSend j, by simp, fun hc => absurd hc hcan,
                by simp [step, Generator, Worker, hp, hg, hl, hw, hci]⟩
          · by_cases ho : s.obsHalf = true
            · exact ⟨.obsCount, by simp, by simp, by simp [step, Generator, hp, hg, ho]⟩
            · exact ⟨.obsSum, by simp, by simp, by simp [step, hp, hg, ho]⟩
          · exact ⟨.genIncr, by simp, by simp, by simp [step, Generator, hp, hg]⟩
          · exact ⟨.genClose, by simp, by simp, by simp [step, Generator, hp, hg, hci]⟩
        · exact ⟨.wSend j, by simp, by simp, by simp [step, Worker, hp, hl, hw, hc, hoc]⟩
        · exact ⟨.wSleep j, by simp, by simp, by simp [step, stepWorkerLocal, Worker, hp, hl, hw]⟩
        · exact ⟨.wClose j, by simp, by simp, by simp [step, Worker, hp, hl, hw, hoc]⟩
      · exact ⟨.cIncr j, by simp, by simp, by simp [step, hp, hl, hc]⟩
      · exact ⟨.cSend j, by simp, by simp, by simp [step, hp, hl, hc, hco, hch, hjN]⟩
      · exact ⟨.cDone j, by simp, by simp, by simp [step, hp, hl, hc, hwg]⟩
  · exact ⟨.main, by simp, by simp, by simp [step, main, hp, hm]⟩
  · exact ⟨.main, by simp, by simp, by simp [step, main, hp, hm]⟩

theorem sum_map_set_sub (f : Lane → Nat) {ls : List Lane} {i : Nat} {l : Lane} (l' : Lane)
    (h : ls[i]? = some l) : ((ls.set i l').map f).sum = (ls.map f).sum - f l + f l' := by
  have h1 := sum_map_set_nat f ls i l l' h
  have h2 := le_sum_of_getElem f ls i l h
  omega

set_option maxHeartbeats 4000000 in
theorem step_workLeft {N : Nat} {s s' : State} {a : Action} (h : Inv N s)
    (hs : step N s a = some s') (ht : a ≠ .timeout) (hg : ∀ i, a ≠ .genSend i) :
    workLeft N s' < workLeft N s := by
  have hp' := (inv_step h hs).noPanic
  have hlen := h.len
  have hidx := h.mainIdx
  have hgs := h.genStarted
  have hlane := h.lane
  unfold step at hs
  split at hs
  · cases hs
  cases a <;> simp only [main, stepWorkerLocal] at hs <;>
    (repeat' split at hs) <;> cases hs <;>
    first
    | (simp at hp'; done)
    | (simp at ht; done)
    | (simp at hg; done)
    | (simp_all [workLeft, rankGen, rankMain, rankB, gen_enter_iff, gen_ctxDone_iff, gen_fn_iff,
        gen_incr_iff, gen_close_iff, Gen.start]; done)
    | (simp_all [workLeft, rankGen, rankMain, rankB, gen_enter_iff, gen_ctxDone_iff, gen_fn_iff,
        gen_incr_iff, gen_close_iff, Gen.start]; omega)
    | (have hl := ‹s.lanes[_]? = some _›
       have hL := hlane _ _ hl
       have hle := le_sum_of_getElem rankLane _ _ _ hl
       have h1 := hL.wStarted
       have h2 := hL.cStarted
       have h3 := lt_of_getElem hl
       simp only [worker_outOk_iff, worker_inOk_iff, worker_sleep_iff,
         worker_inClosed_iff, worker_send_iff, worker_close_iff] at *
       simp only [workLeft]
       rw [sum_map_set_sub rankLane _ hl]
       simp_all [rankLane, rankW, rankC, rankMain, wSpawned, cSpawned]
       omega)

theorem step_cancelled {N : Nat} {s s' : State} {a : Action} (hs : step N s a = some s')
    (hc : s.cancelled = true) : s'.cancelled = true := by
  unfold step at hs
  split at hs
  · cases hs
  cases a <;> simp only [main, stepWorkerLocal] at hs <;>
    (repeat' split at hs) <;> cases hs <;> simp_all

theorem can_finish {N : Nat} {expired : Bool} (k : Nat) :
    ∀ s : State, Reachable N expired s → s.cancelled = true → workLeft N s ≤ k →
      ∃ as s', quiet as = true ∧ runActions N s as = some s' ∧ s'.main = .finished := by
  induction k with
  | zero =>
    intro s hr _ hk
    refine ⟨[], s, rfl, rfl, ?_⟩
    have h0 : rankMain N s.main = 0 := by
      simp only [workLeft] at hk
      omega
    revert h0
    cases s.main <;> simp [rankMain]
  | succ n ih =>
    intro s hr hc hk
    by_cases hf : s.main = .finished
    · exact ⟨[], s, rfl, rfl, hf⟩
    have h := inv_of_reachable hr
    obtain ⟨a, ha, hg, hs⟩ := exists_enabled h hf
    obtain ⟨s1, hs1⟩ := Option.isSome_iff_exists.1 hs
    have hd := step_workLeft h hs1 ha (hg hc)
    obtain ⟨as, s2, hq, hrun, hfin⟩ :=
      ih s1 (Reachable.next a hr hs1) (step_cancelled hs1 hc) (by omega)
    refine ⟨a :: as, s2, ?_, ?_, hfin⟩
    · have hqa : quietAction a = true := by
        have := hg hc
        cases a <;> simp_all [quietAction]
      simp only [quiet, List.all_cons, hqa, Bool.true_and]
      exact hq
    · simp only [runActions, hs1]
      exact hrun

theorem quiet_bound {N : Nat} (as : List Action) :
    ∀ s s' : State, Inv N s → quiet as = true → runActions N s as = some s' →
      as.length + workLeft N s' ≤ workLeft N s := by
  induction as with
  | nil =>
    intro s s' _ _ hr
    simp only [runActions, Option.some.injEq] at hr
    subst hr
    simp
  | cons a t ih =>
    intro s s' h hq hr
    simp only [quiet, List.all_cons, Bool.and_eq_true] at hq
    simp only [runActions] at hr
    split at hr
    · cases hr
    rename_i s1 hs1
    have ha : a ≠ .timeout ∧ ∀ i, a ≠ .genSend i := by
      have := hq.1
      cases a <;> simp_all [quietAction]
    have hd := step_workLeft h hs1 ha.1 ha.2
    have := ih s1 s' (inv_step h hs1) hq.2 hr
    simp only [List.length_cons]
    omega

/-- C6. No reachable state is deadlocked: while the loop of line 118 has not
ended some goroutine has an enabled step that is not the timer, and the step
does not panic. Once `ctx.Done()` is closed the program can run to the end of
the loop of line 118 with no step of the timer and no further send of
`Generator`, and every schedule without such steps has at most `workLeft`
steps. -/
theorem C6_no_deadlock (N : Nat) (expired : Bool) (s : State)
    (hr : Reachable N expired s) :
    (s.main ≠ .finished →
      ∃ a s', a ≠ Action.timeout ∧ step N s a = some s' ∧ s'.panicked = false) ∧
    (s.cancelled = true →
      ∃ as s', quiet as = true ∧ runActions N s as = some s' ∧ s'.main = .finished) ∧
    (∀ as s', quiet as = true → runActions N s as = some s' →
      as.length + workLeft N s' ≤ workLeft N s) := by
  have h := inv_of_reachable hr
  refine ⟨fun hf => ?_, fun hc => can_finish (workLeft N s) s hr hc (Nat.le_refl _),
    fun as s' hq hrun => quiet_bound as s s' h hq hrun⟩
  obtain ⟨a, ha, -, hs⟩ := exists_enabled h hf
  obtain ⟨s', hs'⟩ := Option.isSome_iff_exists.1 hs
  exact ⟨a, s', ha, hs', (inv_step h hs').noPanic⟩

/-- C6, at the state `blocked` of the program with two workers, after the
deadline has passed. -/
theorem C6_no_deadlock_witness :
    (Reachable 2 true blocked ∧ blocked.main ≠ .finished ∧ blocked.cancelled = true) ∧
      (∃ a s', a ≠ Action.timeout ∧ step 2 blocked a = some s' ∧ s'.panicked = false) ∧
      (∃ as s', quiet as = true ∧ runActions 2 blocked as = some s' ∧ s'.main = .finished) :=
  have hr : Reachable 2 true blocked := reachable_of_run blockedRun Reachable.start blocked_run
  have h := C6_no_deadlock 2 true blocked hr
  ⟨⟨hr, by decide, rfl⟩, h.1 (by decide), h.2.1 rfl⟩

/-! ## Runs of Generator and Worker -/

theorem runGenerator_append (c : Bool) (g : Gen) (evs : List GenEvent) (e : GenEvent) :
    runGenerator c g (evs ++ [e]) = (runGenerator c g evs).bind fun g' => Generator c g' e := by
  induction evs generalizing g with
  | nil =>
    simp only [List.nil_append, runGenerator, Option.some_bind]
    cases Generator c g e <;> rfl
  | cons a t ih =>
    simp only [List.cons_append, runGenerator]
    cases Generator c g a with
    | none => rfl
    | some g1 => exact ih g1

theorem runWorker_append (a b : Bool) (w : WorkerPC) (evs : List WorkerEvent)
    (e : WorkerEvent) :
    runWorker a b w (evs ++ [e]) = (runWorker a b w evs).bind fun w' => Worker a b w' e := by
  induction evs generalizing w with
  | nil =>
    simp only [List.nil_append, runWorker, Option.some_bind]
    cases Worker a b w e <;> rfl
  | cons x t ih =>
    simp only [List.cons_append, runWorker]
    cases Worker a b w x with
    | none => rfl
    | some w1 => exact ih w1

theorem cycles_succ (k : Nat) :
    cycles (k + 1) = cycles k ++
      [.send (wrap64 ((k : Int) + 1)), .fn (wrap64 ((k : Int) + 1)), .incr] := by
  simp [cycles, List.range_succ]

theorem genShape_step {c : Bool} {evs : List GenEvent} {g g' : Gen} {e : GenEvent}
    (h : GenShape c evs g) (hs : Generator c g e = some g') : GenShape c (evs ++ [e]) g' := by
  cases e with
  | fatal =>
    obtain ⟨hpc, hc, rfl⟩ := gen_fatal_iff.1 hs
    rcases h with ⟨rfl, rfl⟩ | ⟨-, rfl, -⟩ | ⟨-, k, -, h⟩
    · exact Or.inr (Or.inl ⟨hc, rfl, rfl⟩)
    · simp at hpc
    · simp_all
  | enter =>
    obtain ⟨hpc, hc, rfl⟩ := gen_enter_iff.1 hs
    rcases h with ⟨rfl, rfl⟩ | ⟨-, rfl, -⟩ | ⟨-, k, -, h⟩
    · exact Or.inr (Or.inr ⟨hc, 0, by simp [Gen.start, wrap64], Or.inl ⟨rfl, by simp [cycles]⟩⟩)
    · simp at hpc
    · simp_all
  | ctxDone =>
    obtain ⟨hpc, rfl⟩ := gen_ctxDone_iff.1 hs
    rcases h with ⟨rfl, rfl⟩ | ⟨-, rfl, -⟩ | ⟨hc, k, hk, h⟩
    · simp [Gen.start] at hpc
    · simp at hpc
    · refine Or.inr (Or.inr ⟨hc, k, hk, ?_⟩)
      rcases h with ⟨-, rfl⟩ | ⟨h1, -⟩ | ⟨h1, -⟩ | ⟨h1, -⟩ | ⟨h1, -⟩
      · exact Or.inr (Or.inr (Or.inr (Or.inl ⟨rfl, by simp⟩)))
      all_goals simp [hpc] at h1
  | send v =>
    obtain ⟨hpc, rfl, rfl⟩ := gen_send_iff.1 hs
    rcases h with ⟨rfl, rfl⟩ | ⟨-, rfl, -⟩ | ⟨hc, k, hk, h⟩
    · simp [Gen.start] at hpc
    · simp at hpc
    · refine Or.inr (Or.inr ⟨hc, k, hk, ?_⟩)
      rcases h with ⟨-, rfl⟩ | ⟨h1, -⟩ | ⟨h1, -⟩ | ⟨h1, -⟩ | ⟨h1, -⟩
      · exact Or.inr (Or.inl ⟨rfl, by simp⟩)
      all_goals simp [hpc] at h1
  | fn v =>
    obtain ⟨hpc, rfl, rfl⟩ := gen_fn_iff.1 hs
    rcases h with ⟨rfl, rfl⟩ | ⟨-, rfl, -⟩ | ⟨hc, k, hk, h⟩
    · simp [Gen.start] at hpc
    · simp at hpc
    · refine Or.inr (Or.inr ⟨hc, k, hk, ?_⟩)
      rcases h with ⟨h1, -⟩ | ⟨-, rfl⟩ | ⟨h1, -⟩ | ⟨h1, -⟩ | ⟨h1, -⟩
      · simp [hpc] at h1
      · exact Or.inr (Or.inr (Or.inl ⟨rfl, by simp⟩))
      all_goals simp [hpc] at h1
  | incr =>
    obtain ⟨hpc, rfl⟩ := gen_incr_iff.1 hs
    rcases h with ⟨rfl, rfl⟩ | ⟨-, rfl, -⟩ | ⟨hc, k, hk, h⟩
    · simp [Gen.start] at hpc
    · simp at hpc
    · refine Or.inr (Or.inr ⟨hc, k + 1, ?_, ?_⟩)
      · simp only [hk, wrap64]
        push_cast
        omega
      rcases h with ⟨h1, -⟩ | ⟨h1, -⟩ | ⟨-, rfl⟩ | ⟨h1, -⟩ | ⟨h1, -⟩
      · simp [hpc] at h1
      · simp [hpc] at h1
      · exact Or.inl ⟨rfl, by simp [cycles_succ, hk]⟩
      all_goals simp [hpc] at h1
  | close =>
    obtain ⟨hpc, rfl⟩ := gen_close_iff.1 hs
    rcases h with ⟨rfl, rfl⟩ | ⟨-, rfl, -⟩ | ⟨hc, k, hk, h⟩
    · simp [Gen.start] at hpc
    · simp at hpc
    · refine Or.inr (Or.inr ⟨hc, k, hk, ?_⟩)
      rcases h with ⟨h1, -⟩ | ⟨h1, -⟩ | ⟨h1, -⟩ | ⟨-, rfl⟩ | ⟨h1, -⟩
      · simp [hpc] at h1
      · simp [hpc] at h1
      · simp [hpc] at h1
      · exact Or.inr (Or.inr (Or.inr (Or.inr ⟨rfl, by simp⟩)))
      · simp [hpc] at h1

theorem genShape_of_run (c : Bool) (evs : List GenEvent) (g : Gen)
    (h : runGenerator c Gen.start evs = some g) : GenShape c evs g := by
  induction evs using List.reverseRecOn generalizing g with
  | nil =>
    simp only [runGenerator, Option.some.injEq] at h
    exact Or.inl ⟨h.symm, rfl⟩
  | append_singleton t e ih =>
    rw [runGenerator_append] at h
    cases h1 : runGenerator c Gen.start t with
    | none => simp [h1] at h
    | some g1 =>
      rw [h1, Option.some_bind] at h
      exact genShape_step (ih g1 h1) h

theorem sends_append (a b : List GenEvent) : sends (a ++ b) = sends a ++ sends b := by
  simp [sends, List.filterMap_append]

theorem fnCalls_append (a b : List GenEvent) : fnCalls (a ++ b) = fnCalls a ++ fnCalls b := by
  simp [fnCalls, List.filterMap_append]

theorem sends_cycles (k : Nat) : sends (cycles k) = sentList k := by
  induction k with
  | zero => rfl
  | succ n ih =>
    rw [cycles_succ, sends_append, ih, sentList_succ]
    rfl

theorem fnCalls_cycles (k : Nat) : fnCalls (cycles k) = sentList k := by
  induction k with
  | zero => rfl
  | succ n ih =>
    rw [cycles_succ, fnCalls_append, ih, sentList_succ]
    rfl

theorem sends_enter (t : List GenEvent) : sends (.enter :: t) = sends t := rfl

theorem fnCalls_enter (t : List GenEvent) : fnCalls (.enter :: t) = fnCalls t := rfl

theorem length_sentList (k : Nat) : (sentList k).length = k := by
  simp [sentList]

theorem canon_succ (k : Nat) :
    canon (k + 1) = canon k ++ [.send ((k : Int) + 1), .fn ((k : Int) + 1), .incr] := by
  simp [canon, oneTo_succ]

theorem cycles_eq_canon (k : Nat) (h : (k : Int) < 9223372036854775808) :
    cycles k = canon k := by
  induction k with
  | zero => rfl
  | succ n ih =>
    have h1 : wrap64 ((n : Int) + 1) = (n : Int) + 1 := by
      simp only [wrap64]
      push_cast at h
      omega
    rw [cycles_succ, canon_succ, ih (by push_cast at h; omega), h1]

/-- C4. Every run of `Generator` with a non-nil channel that sends fewer than
2^63 values sends exactly `1, ..., K` and calls `fn` with `1, ..., K` (or
`1, ..., K-1` while the call for `K` is pending); the run is `k` iterations
`send i, fn i, cnt++` followed by nothing, one pending send, one pending send
and call, or the return on `ctx.Done()`; on return `cnt` holds the value after
`K`, which was never sent. -/
theorem C4_producer_sequence (evs : List GenEvent) (g : Gen)
    (hrun : runGenerator false Gen.start evs = some g)
    (hK : ((sends evs).length : Int) < 9223372036854775808) :
    sends evs = oneTo (sends evs).length ∧
      fnCalls evs = oneTo (fnCalls evs).length ∧
      ((fnCalls evs).length = (sends evs).length ∨
        (g.pc = .callFn ∧ (fnCalls evs).length + 1 = (sends evs).length)) ∧
      (evs = [] ∨ ∃ k : Nat, ∃ tail ∈ tails ((k : Int) + 1), evs = .enter :: canon k ++ tail) ∧
      (g.pc = .done →
        evs = .enter :: canon (sends evs).length ++ [.ctxDone, .close] ∧
        g.cnt = wrap64 (((sends evs).length : Int) + 1) ∧ g.cnt ∉ sends evs) := by
  rcases genShape_of_run false evs g hrun with ⟨rfl, rfl⟩ | ⟨hc, -⟩ | ⟨-, k, hk, h⟩
  · refine ⟨rfl, rfl, Or.inl rfl, Or.inl rfl, ?_⟩
    intro hpc
    simp [Gen.start] at hpc
  · cases hc
  rcases h with ⟨hpc, rfl⟩ | ⟨hpc, rfl⟩ | ⟨hpc, rfl⟩ | ⟨hpc, rfl⟩ | ⟨hpc, rfl⟩
  · -- blocked in select
    have hs : sends (.enter :: cycles k) = sentList k := by
      rw [sends_enter, sends_cycles]
    have hf : fnCalls (.enter :: cycles k) = sentList k := by
      rw [fnCalls_enter, fnCalls_cycles]
    rw [hs, length_sentList] at hK
    rw [hs, hf, length_sentList, sentList_eq_oneTo k hK, cycles_eq_canon k hK]
    refine ⟨rfl, rfl, Or.inl rfl, Or.inr ⟨k, [], by simp [tails], by simp⟩, ?_⟩
    intro hd
    simp [hpc] at hd
  · -- the send is accepted, the call of fn is pending
    have hs : sends (.enter :: cycles k ++ [.send g.cnt]) = sentList (k + 1) := by
      rw [List.cons_append, sends_enter, sends_append, sends_cycles, sentList_succ, hk]
      rfl
    have hf : fnCalls (.enter :: cycles k ++ [.send g.cnt]) = sentList k := by
      rw [List.cons_append, fnCalls_enter, fnCalls_append, fnCalls_cycles]
      exact List.append_nil _
    rw [hs, length_sentList] at hK
    have hk' : (k : Int) < 9223372036854775808 := by
      push_cast at hK
      omega
    have hcnt : g.cnt = (k : Int) + 1 := by
      rw [hk]
      simp only [wrap64]
      push_cast at hK
      omega
    rw [hs, hf, length_sentList, length_sentList, sentList_eq_oneTo k hk',
      sentList_eq_oneTo (k + 1) hK, cycles_eq_canon k hk']
    refine ⟨rfl, rfl, Or.inr ⟨hpc, rfl⟩, Or.inr ⟨k, [.send g.cnt], by simp [tails, hcnt], rfl⟩, ?_⟩
    intro hd
    simp [hpc] at hd
  · -- fn has returned, cnt++ is pending
    have hs : sends (.enter :: cycles k ++ [.send g.cnt, .fn g.cnt]) = sentList (k + 1) := by
      rw [List.cons_append, sends_enter, sends_append, sends_cycles, sentList_succ, hk]
      rfl
    have hf : fnCalls (.enter :: cycles k ++ [.send g.cnt, .fn g.cnt]) = sentList (k + 1) := by
      rw [List.cons_append, fnCalls_enter, fnCalls_append, fnCalls_cycles, sentList_succ, hk]
      rfl
    rw [hs, length_sentList] at hK
    have hk' : (k : Int) < 9223372036854775808 := by
      push_cast at hK
      omega
    have hcnt : g.cnt = (k : Int) + 1 := by
      rw [hk]
      simp only [wrap64]
      push_cast at hK
      omega
    rw [hs, hf, length_sentList, sentList_eq_oneTo (k + 1) hK, cycles_eq_canon k hk']
    refine ⟨rfl, rfl, Or.inl rfl,
      Or.inr ⟨k, [.send g.cnt, .fn g.cnt], by simp [tails, hcnt], rfl⟩, ?_⟩
    intro hd
    simp [hpc] at hd
  · -- ctx.Done() was taken, the deferred close is pending
    have hs : sends (.enter :: cycles k ++ [.ctxDone]) = sentList k := by
      rw [List.cons_append, sends_enter, sends_append, sends_cycles]
      exact List.append_nil _
    have hf : fnCalls (.enter :: cycles k ++ [.ctxDone]) = sentList k := by
      rw [List.cons_append, fnCalls_enter, fnCalls_append, fnCalls_cycles]
      exact List.append_nil _
    rw [hs, length_sentList] at hK
    rw [hs, hf, length_sentList, sentList_eq_oneTo k hK, cycles_eq_canon k hK]
    refine ⟨rfl, rfl, Or.inl rfl, Or.inr ⟨k, [.ctxDone], by simp [tails], rfl⟩, ?_⟩
    intro hd
    simp [hpc] at hd
  · -- returned
    have hs : sends (.enter :: cycles k ++ [.ctxDone, .close]) = sentList k := by
      rw [List.cons_append, sends_enter, sends_append, sends_cycles]
      exact List.append_nil _
    have hf : fnCalls (.enter :: cycles k ++ [.ctxDone, .close]) = sentList k := by
      rw [List.cons_append, fnCalls_enter, fnCalls_append, fnCalls_cycles]
      exact List.append_nil _
    rw [hs, length_sentList] at hK
    rw [hs, hf, length_sentList, sentList_eq_oneTo k hK, cycles_eq_canon k hK]
    refine ⟨rfl, rfl, Or.inl rfl, Or.inr ⟨k, [.ctxDone, .close], by simp [tails], rfl⟩, ?_⟩
    intro _
    refine ⟨rfl, hk, ?_⟩
    rw [mem_oneTo, hk]
    simp only [wrap64]
    omega

/-- C4, at a run of two iterations that ends at `ctx.Done()`. -/
theorem C4_producer_sequence_witness :
    (runGenerator false Gen.start
        [.enter, .send 1, .fn 1, .incr, .send 2, .fn 2, .incr, .ctxDone, .close]
        = some { pc := .done, cnt := 3 } ∧
      ((sends [.enter, .send 1, .fn 1, .incr, .send 2, .fn 2, .incr, .ctxDone, .close]).length
        : Int) < 9223372036854775808) ∧
      sends [.enter, .send 1, .fn 1, .incr, .send 2, .fn 2, .incr, .ctxDone, .close] = [1, 2] ∧
      fnCalls [.enter, .send 1, .fn 1, .incr, .send 2, .fn 2, .incr, .ctxDone, .close]
        = oneTo 2 :=
  ⟨⟨by decide, by decide⟩, by decide,
    (C4_producer_sequence [.enter, .send 1, .fn 1, .incr, .send 2, .fn 2, .incr, .ctxDone, .close]
      { pc := .done, cnt := 3 } (by decide) (by decide)).2.1⟩

/-! ## Nil channels -/

theorem workerShape_step {a b : Bool} {evs : List WorkerEvent} {w w' : WorkerPC}
    {e : WorkerEvent} (h : WorkerNilShape a b evs w) (hs : Worker a b w e = some w') :
    WorkerNilShape a b (evs ++ [e]) w' := by
  rcases h with ⟨rfl, rfl⟩ | ⟨-, rfl, -⟩ | ⟨hb, rfl, rfl⟩ | ⟨-, -, rfl, -⟩ | ⟨hb, ha, h1, h2, h3, h4⟩
  · cases e <;> cases b <;> simp [Worker] at hs
    · subst hs
      exact Or.inr (Or.inl ⟨rfl, rfl, rfl⟩)
    · subst hs
      exact Or.inr (Or.inr (Or.inl ⟨rfl, rfl, rfl⟩))
  · cases e <;> simp [Worker] at hs
  · cases e <;> cases a <;> simp [Worker] at hs
    · subst hs
      exact Or.inr (Or.inr (Or.inr (Or.inl ⟨hb, rfl, rfl, rfl⟩)))
    · subst hs
      exact Or.inr (Or.inr (Or.inr (Or.inr ⟨hb, rfl, by simp, by simp, by simp, by simp⟩)))
  · cases e <;> simp [Worker] at hs
  · refine Or.inr (Or.inr (Or.inr (Or.inr ⟨hb, ha, ?_⟩)))
    have hmem : ∀ e' : WorkerEvent, e' ≠ .fatal → WorkerEvent.fatal ∉ evs ++ [e'] := by
      intro e' he
      simp only [List.mem_append, List.mem_singleton, not_or]
      exact ⟨h4, fun h5 => he h5.symm⟩
    cases e with
    | fatal =>
      obtain ⟨h5 | h5, -⟩ := worker_fatal_iff.1 hs
      · exact absurd h5.1 h2
      · exact absurd h5.1 h3
    | outOk => exact absurd (worker_outOk_iff.1 hs).1 h2
    | inOk =>
      obtain ⟨-, -, rfl⟩ := worker_inOk_iff.1 hs
      exact ⟨by simp, by simp, by simp, hmem _ (by simp)⟩
    | recv v =>
      obtain ⟨-, rfl⟩ := worker_recv_iff.1 hs
      exact ⟨by simp, by simp, by simp, hmem _ (by simp)⟩
    | inClosed =>
      obtain ⟨-, rfl⟩ := worker_inClosed_iff.1 hs
      exact ⟨by simp, by simp, by simp, hmem _ (by simp)⟩
    | send v =>
      obtain ⟨-, rfl⟩ := worker_send_iff.1 hs
      exact ⟨by simp, by simp, by simp, hmem _ (by simp)⟩
    | sleep =>
      obtain ⟨-, rfl⟩ := worker_sleep_iff.1 hs
      exact ⟨by simp, by simp, by simp, hmem _ (by simp)⟩
    | close =>
      obtain ⟨-, rfl⟩ := worker_close_iff.1 hs
      exact ⟨by simp, by simp, by simp, hmem _ (by simp)⟩

theorem workerShape_of_run (a b : Bool) (evs : List WorkerEvent) (w : WorkerPC)
    (h : runWorker a b .entry evs = some w) : WorkerNilShape a b evs w := by
  induction evs using List.reverseRecOn generalizing w with
  | nil =>
    simp only [runWorker, Option.some.injEq] at h
    exact Or.inl ⟨h.symm, rfl⟩
  | append_singleton t e ih =>
    rw [runWorker_append] at h
    cases h1 : runWorker a b .entry t with
    | none => simp [h1] at h
    | some w1 =>
      rw [h1, Option.some_bind] at h
      exact workerShape_step (ih w1 h1) h

/-- C10. `Generator` reaches `log.Fatalf` exactly when `ch` is nil, and then
the fatal error is all it does (no send, no call of `fn`, no close). `Worker`
reaches `log.Fatalf` exactly when `in` or `out` is nil, and then it receives
and sends nothing. With all channels non-nil neither reaches `log.Fatalf`. -/
theorem C10_nil_channels :
    (∀ chNil : Bool,
      (∃ evs g, runGenerator chNil Gen.start evs = some g ∧ g.pc = .fatal) ↔ chNil = true) ∧
    (∀ evs g, runGenerator true Gen.start evs = some g →
      evs = [] ∨ (evs = [.fatal] ∧ g.pc = .fatal)) ∧
    (∀ e g, Generator true Gen.start e = some g → e = .fatal) ∧
    (∀ inNil outNil : Bool,
      (∃ evs w, runWorker inNil outNil .entry evs = some w ∧ w = .fatal) ↔
        (inNil = true ∨ outNil = true)) ∧
    (∀ (inNil outNil : Bool) evs w, inNil = true ∨ outNil = true →
      runWorker inNil outNil .entry evs = some w →
      (∀ e ∈ evs, e = .fatal ∨ e = .outOk) ∧
      (evs = [] ∨ evs = [.outOk] ∨ w = .fatal)) := by
  refine ⟨?_, ?_, ?_, ?_, ?_⟩
  · intro chNil
    constructor
    · rintro ⟨evs, g, hr, hg⟩
      rcases genShape_of_run chNil evs g hr with ⟨rfl, -⟩ | ⟨hc, -⟩ | ⟨-, k, -, h⟩
      · simp [Gen.start] at hg
      · exact hc
      · rcases h with ⟨h1, -⟩ | ⟨h1, -⟩ | ⟨h1, -⟩ | ⟨h1, -⟩ | ⟨h1, -⟩ <;> simp [hg] at h1
    · rintro rfl
      exact ⟨[.fatal], { pc := .fatal, cnt := 1 }, by decide, rfl⟩
  · intro evs g hr
    rcases genShape_of_run true evs g hr with ⟨-, rfl⟩ | ⟨-, rfl, rfl⟩ | ⟨hc, -⟩
    · exact Or.inl rfl
    · exact Or.inr ⟨rfl, rfl⟩
    · cases hc
  · intro e g h
    cases e <;> simp [Generator, Gen.start] at h
    rfl
  · intro inNil outNil
    constructor
    · rintro ⟨evs, w, hr, rfl⟩
      rcases workerShape_of_run inNil outNil evs _ hr with
        ⟨h1, -⟩ | ⟨h1, -⟩ | ⟨-, h1, -⟩ | ⟨-, h1, -⟩ | ⟨-, -, h1, -⟩
      · cases h1
      · exact Or.inr h1
      · cases h1
      · exact Or.inl h1
      · exact absurd rfl h1
    · rintro (rfl | rfl)
      · cases outNil
        · exact ⟨[.outOk, .fatal], .fatal, by decide, rfl⟩
        · exact ⟨[.fatal], .fatal, by decide, rfl⟩
      · exact ⟨[.fatal], .fatal, by cases inNil <;> decide, rfl⟩
  · intro inNil outNil evs w hn hr
    rcases workerShape_of_run inNil outNil evs w hr with
      ⟨-, rfl⟩ | ⟨-, rfl, rfl⟩ | ⟨-, -, rfl⟩ | ⟨-, -, rfl, rfl⟩ | ⟨h1, h2, -⟩
    · simp
    · simp
    · simp
    · simp
    · rcases hn with hn | hn
      · rw [hn] at h2
        cases h2
      · rw [hn] at h1
        cases h1

/-! ## The verifier -/

/-- C7. The final checks end in `log.Fatalf` exactly when `inputSum ≠ sum`, or
`inputCount ≠ count`, or `inputCount` minus the sum of `amounts` is non-zero in
int64 arithmetic; when the three equalities hold `main` ends normally. Where
the difference does not overflow it is the difference of the integers. -/
theorem C7_verifier (inputSum inputCount sum count : Int) (amounts : List Int)
    (hc : isInt64 inputCount) :
    (checkResults inputSum inputCount sum count amounts ≠ none ↔
      inputSum ≠ sum ∨ inputCount ≠ count ∨ wrap64 (inputCount - amounts.sum) ≠ 0) ∧
    (inputSum = sum → inputCount = count → wrap64 (inputCount - amounts.sum) = 0 →
      checkResults inputSum inputCount sum count amounts = none) ∧
    amounts.foldl (fun acc v => wrap64 (acc - v)) inputCount
      = wrap64 (inputCount - amounts.sum) ∧
    (isInt64 (inputCount - amounts.sum) →
      wrap64 (inputCount - amounts.sum) = inputCount - amounts.sum) := by
  have h := checkResults_eq_none_iff inputSum inputCount sum count amounts hc
  refine ⟨?_, ?_, foldl_sub_wrap _ _ hc, ?_⟩
  · rw [ne_eq, h]
    by_cases h1 : inputSum = sum <;> by_cases h2 : inputCount = count <;> simp [h1, h2]
  · intro h1 h2 h3
    exact h.2 ⟨h1, h2, h3⟩
  · intro hr
    simp only [wrap64, isInt64] at *
    omega

/-- C7, at `inputCount = 3` split as 2 + 1 with equal sums and counts, and at a
wrong split. -/
theorem C7_verifier_witness :
    isInt64 3 ∧ checkResults 6 3 6 3 [2, 1] = none ∧
      checkResults 6 3 6 3 [2, 2] = some .splitMismatch ∧
      (checkResults 6 3 6 3 [2, 2] ≠ none ↔
        (6 : Int) ≠ 6 ∨ (3 : Int) ≠ 3 ∨ wrap64 (3 - [2, 2].sum) ≠ 0) :=
  ⟨⟨by decide, by decide⟩, by decide, by decide,
    (C7_verifier 6 3 6 3 [2, 2] ⟨by decide, by decide⟩).1⟩

end Pipeline
